import Mathlib

/-!
ArcVector.

A shallow embedding of the class template `ArcVector<T>` of `arcvector.h`, together
with proofs of its contract.

The model:

* A pointer `T*` is `Ptr`: the null pointer, or a block of the free store
  together with an element offset into it.
* The free store is a list of blocks, indexed by block id.  A block is
  `some xs` while it is allocated (`xs` are its elements) and `none` once
  `delete[]` has released it.  `new T[n]` appends a fresh block, so a block id
  is never handed out twice.
* `new T[n]` either returns a block of `n` elements or throws
  `std::bad_alloc`.  The elements are default-initialised, which for a scalar
  `T` leaves their values indeterminate: what a fresh block holds is an input
  of the model (`Fresh`), and nothing is assumed about it.  Whether the
  allocator grants a request is an input too (`granted`); it never grants more
  than `MAX_ARRAY_LEN` elements, the largest array a 64-bit implementation can
  create.
* `size_t` is `Nat` reduced modulo `SIZE_MOD = 2 ^ 64` where the source does
  arithmetic on it.
* The `ArcVector` objects of a program live in an object table, indexed by an
  object id which plays the role of the object's address (`this`, `&other`).
* A member function maps a `World` to an `Outcome`: a normal return, a thrown
  C++ exception (with the state at the throw), or undefined behaviour.
* The parameter of `push_back` is a reference (`Arg`): it is bound to an
  object outside the free store, or to an element of a block, and it is read
  when `*end_++ = value` runs, after a growth has released the old block.
  Results stated for an object outside the free store (`.val v`) carry over
  to an element of a block other than the container's own, and to any element
  when the call does not grow (`push_back_reference`).
* `std::copy` and `std::uninitialized_copy` report the number of elements
  they copied; `reallocate` passes that number on, so that copying work is
  measured by the code which does it.
-/

namespace ArcVec

/-- Number of values of the 64-bit type `size_t`. -/
def SIZE_MOD : Nat := 2 ^ 64

/-- Largest number of elements `new T[n]` can ever grant (`PTRDIFF_MAX`). -/
def MAX_ARRAY_LEN : Nat := 2 ^ 63 - 1

/-- A pointer `T*`. -/
inductive Ptr where
  | null
  | elem (block : Nat) (off : Nat)
deriving DecidableEq, Repr

/-- Pointer arithmetic `p + n`.  On the null pointer only `n = 0` is meaningful in C++;
the class adds a non-zero offset only to pointers it got from `new`. -/
def Ptr.add : Ptr → Nat → Ptr
  | .null, _ => .null
  | .elem b i, n => .elem b (i + n)

/-- Pointer decrement `--p`.  The class decrements `end_` only under `size_ > 0`, when
it points past at least one element. -/
def Ptr.pred : Ptr → Ptr
  | .null => .null
  | .elem b i => .elem b (i - 1)

/-- The C++ exceptions the class can raise. -/
inductive Exn where
  | out_of_range
  | bad_alloc
deriving DecidableEq, Repr

/-- The free store: block id ↦ contents, `none` for a released block. -/
abbrev Heap (T : Type) := List (Option (List T))

/-- The private data members of `ArcVector<T>` (lines 40-45). -/
structure ArcVector where
  begin_ : Ptr
  end_ : Ptr
  allocationBegin_ : Ptr
  allocationEnd_ : Ptr
  size_ : Nat
  capacity_ : Nat
deriving DecidableEq, Repr

/-- Program state: the free store and the table of `ArcVector` objects. -/
structure World (T : Type) where
  heap : Heap T
  objs : List ArcVector

/-- Result of running a member function. -/
inductive Outcome (σ α : Type) where
  | ret (s : σ) (a : α)
  | throw (s : σ) (e : Exn)
  | undefined

/-! ## Library primitives used by the class -/

/-- What the elements of a new array hold.  `new T[n]` default-initialises its elements:
an element of class type is default-constructed, an element of scalar type is left
indeterminate and holds whatever the memory held.  `Fresh.fresh b i` is the value of
element `i` of block `b` when `new T[n]` hands the block out.  It is an input of the
model: the results hold for every such assignment of values. -/
class Fresh (T : Type) where
  fresh : Nat → Nat → T

/-- The elements of block `b` when `new T[n]` hands it out. -/
def fresh_block {T : Type} [Fresh T] (b n : Nat) : List T :=
  (List.range n).map (Fresh.fresh b)

/-- The expression `new T[n]`: `none` stands for a thrown `std::bad_alloc`. -/
def new_array {T : Type} [Fresh T] (granted : Bool) (h : Heap T) (n : Nat) :
    Option (Heap T × Ptr) :=
  if granted = true ∧ n ≤ MAX_ARRAY_LEN then
    some (h ++ [some (fresh_block h.length n)], Ptr.elem h.length 0)
  else none

/-- The statement `delete[] p`: `none` stands for undefined behaviour. -/
def delete_array {T : Type} (h : Heap T) : Ptr → Option (Heap T)
  | .null => some h
  | .elem b i =>
    if i = 0 then
      match h[b]? with
      | some (some _) => some (h.set b none)
      | _ => none
    else none

/-- The elements of the range `[first, last)`; `none` if it is not a valid range. -/
def read_range {T : Type} (h : Heap T) : Ptr → Ptr → Option (List T)
  | .null, .null => some []
  | .elem b i, .elem b' j =>
    if b = b' ∧ i ≤ j then
      match h[b]? with
      | some (some xs) => if j ≤ xs.length then some ((xs.drop i).take (j - i)) else none
      | _ => none
    else none
  | _, _ => none

/-- Stores `vs` into consecutive elements starting at `d`; `none` if they do not fit. -/
def write_range {T : Type} (h : Heap T) (d : Ptr) (vs : List T) : Option (Heap T) :=
  match d with
  | .null => if vs.length = 0 then some h else none
  | .elem b i =>
    match h[b]? with
    | some (some xs) =>
      if i + vs.length ≤ xs.length then
        some (h.set b (some (xs.take i ++ vs ++ xs.drop (i + vs.length))))
      else none
    | _ => none

/-- The calls `std::copy(first, last, d)` and `std::uninitialized_copy(first, last, d)`:
the new free store, the returned end of the destination range, and the number of
elements the call copied (the elements it stored into the destination, which is the
distance from `d` to the returned end). -/
def std_copy {T : Type} (h : Heap T) (first last d : Ptr) :
    Option (Heap T × Ptr × Nat) :=
  match read_range h first last with
  | none => none
  | some vs =>
    match write_range h d vs with
    | none => none
    | some h' => some (h', d.add vs.length, vs.length)

/-- Reads the element a pointer refers to. -/
def load {T : Type} (h : Heap T) : Ptr → Option T
  | .null => none
  | .elem b i =>
    match h[b]? with
    | some (some xs) => xs[i]?
    | _ => none

/-- The object a reference parameter (`const T&` or `T&&`) is bound to: an object which
is not an element of any block (a temporary, a variable) and holds `v`, or the element
of a block which `p` points to. -/
inductive Arg (T : Type) where
  | val (v : T)
  | ref (p : Ptr)

/-- Reads the object a reference parameter is bound to; `none` stands for undefined
behaviour (the element is not there, for one because its block has been released). -/
def Arg.read {T : Type} (h : Heap T) : Arg T → Option T
  | .val v => some v
  | .ref p => load h p

/-! ## The member functions of `ArcVector<T>` -/

/-- The state of a default-constructed or moved-from object. -/
def ArcVector.empty : ArcVector :=
  ⟨.null, .null, .null, .null, 0, 0⟩

/-- The constructor `ArcVector()` (lines 52-54); returns the id of the new object. -/
def ctor_default {T : Type} (w : World T) : Outcome (World T) Nat :=
  .ret { w with objs := w.objs ++ [⟨.null, .null, .null, .null, 0, 0⟩] } w.objs.length

/-- The constructor `ArcVector(size_t size)` (lines 56-58). -/
def ctor_size {T : Type} [Fresh T] (granted : Bool) (w : World T) (size : Nat) :
    Outcome (World T) Nat :=
  match new_array granted w.heap size with
  | none => .throw w .bad_alloc
  | some (h, p) =>
    .ret { heap := h, objs := w.objs ++ [⟨p, p.add size, p, p.add size, size, size⟩] }
      w.objs.length

/-- The copy constructor `ArcVector(const ArcVector& other)` (lines 60-64). -/
def ctor_copy {T : Type} [Fresh T] (granted : Bool) (w : World T) (other : Nat) :
    Outcome (World T) Nat :=
  match w.objs[other]? with
  | none => .undefined
  | some o =>
    match new_array granted w.heap o.capacity_ with
    | none => .throw w .bad_alloc
    | some (h, p) =>
      match std_copy h o.begin_ o.end_ p with
      | none => .undefined
      | some (h', _) =>
        .ret { heap := h',
               objs := w.objs ++
                 [⟨p, p.add o.size_, p, p.add o.capacity_, o.size_, o.capacity_⟩] }
          w.objs.length

/-- The move constructor `ArcVector(ArcVector&& other)` (lines 66-75). -/
def ctor_move {T : Type} (w : World T) (other : Nat) : Outcome (World T) Nat :=
  match w.objs[other]? with
  | none => .undefined
  | some o =>
    .ret { w with
           objs := (w.objs.set other ⟨.null, .null, .null, .null, 0, 0⟩) ++
             [⟨o.begin_, o.end_, o.allocationBegin_, o.allocationEnd_, o.size_,
               o.capacity_⟩] }
      w.objs.length

/-- Copy assignment `operator=(const ArcVector& other)` (lines 82-96). -/
def operator_assign_copy {T : Type} [Fresh T] (granted : Bool) (w : World T) (this other : Nat) :
    Outcome (World T) Unit :=
  match w.objs[this]?, w.objs[other]? with
  | some t, some o =>
    if this ≠ other then
      match new_array granted w.heap o.capacity_ with
      | none => .throw w .bad_alloc
      | some (h1, new_data) =>
        match std_copy h1 o.begin_ o.end_ new_data with
        | none => .undefined
        | some (h2, _) =>
          match delete_array h2 t.begin_ with
          | none => .undefined
          | some h3 =>
            .ret { heap := h3,
                   objs := w.objs.set this
                     ⟨new_data, new_data.add o.size_, new_data, new_data.add o.capacity_,
                      o.size_, o.capacity_⟩ } ()
    else .ret w ()
  | _, _ => .undefined

/-- Move assignment `operator=(ArcVector&& other)` (lines 98-116). -/
def operator_assign_move {T : Type} (w : World T) (this other : Nat) : Outcome (World T) Unit :=
  match w.objs[this]?, w.objs[other]? with
  | some t, some o =>
    if this ≠ other then
      match delete_array w.heap t.begin_ with
      | none => .undefined
      | some h =>
        .ret { heap := h,
               objs := (w.objs.set this
                 ⟨o.begin_, o.end_, o.allocationBegin_, o.allocationEnd_, o.size_,
                  o.capacity_⟩).set other ⟨.null, .null, .null, .null, 0, 0⟩ } ()
    else .ret w ()
  | _, _ => .undefined

/-- The accessor `T& operator[](size_t index)` (lines 118-124); the returned reference is
the pointer to the element. -/
def operator_index {T : Type} (w : World T) (this index : Nat) : Outcome (World T) Ptr :=
  match w.objs[this]? with
  | none => .undefined
  | some t =>
    if index ≥ t.size_ then .throw w .out_of_range
    else .ret w (t.begin_.add index)

/-- The accessor `const T& operator[](size_t index) const` (lines 126-132). -/
def operator_index_const {T : Type} (w : World T) (this index : Nat) :
    Outcome (World T) Ptr :=
  match w.objs[this]? with
  | none => .undefined
  | some t =>
    if index ≥ t.size_ then .throw w .out_of_range
    else .ret w (t.begin_.add index)

/-- The query `size()` (lines 134-137). -/
def size {T : Type} (w : World T) (this : Nat) : Option Nat :=
  match w.objs[this]? with
  | none => none
  | some t => some t.size_

/-- The query `capacity()` (lines 139-142). -/
def capacity {T : Type} (w : World T) (this : Nat) : Option Nat :=
  match w.objs[this]? with
  | none => none
  | some t => some t.capacity_

/-- The private helper `reallocate(size_t new_capacity)` (lines 176-186).  The function
returns nothing; the value given here is the number of elements its
`std::uninitialized_copy` copied. -/
def reallocate {T : Type} [Fresh T] (granted : Bool) (w : World T)
    (this new_capacity : Nat) : Outcome (World T) Nat :=
  match w.objs[this]? with
  | none => .undefined
  | some t =>
    match new_array granted w.heap new_capacity with
    | none => .throw w .bad_alloc
    | some (h1, new_data) =>
      match std_copy h1 t.begin_ t.end_ new_data with
      | none => .undefined
      | some (h2, new_end, copied) =>
        match delete_array h2 t.begin_ with
        | none => .undefined
        | some h3 =>
          .ret { heap := h3,
                 objs := w.objs.set this
                   { t with begin_ := new_data, end_ := new_end,
                            allocationBegin_ := new_data,
                            allocationEnd_ := new_data.add new_capacity,
                            capacity_ := new_capacity } } copied

/-- The statement `if (size_ == capacity_) reallocate(capacity_ == 0 ? 1 : capacity_ * 2);`
which opens both overloads of `push_back` (lines 146-148 and 155-157).  The value is
the number of elements copied: what `reallocate` reports, and 0 when it is not called. -/
def ensure_room {T : Type} [Fresh T] (granted : Bool) (w : World T) (this : Nat) :
    Outcome (World T) Nat :=
  match w.objs[this]? with
  | none => .undefined
  | some t =>
    if t.size_ = t.capacity_ then
      reallocate granted w this
        (if t.capacity_ = 0 then 1 else (t.capacity_ * 2) % SIZE_MOD)
    else .ret w 0

/-- The statements `*end_++ = value; ++size_;` which end both overloads of `push_back`
(lines 149-150 and 158-159).  The parameter `value` is a reference: the object it is
bound to is read here, when the assignment runs. -/
def store_at_end {T : Type} (w : World T) (this : Nat) (value : Arg T) :
    Outcome (World T) Unit :=
  match w.objs[this]? with
  | none => .undefined
  | some t =>
    match value.read w.heap with
    | none => .undefined
    | some v =>
      match write_range w.heap t.end_ [v] with
      | none => .undefined
      | some h =>
        .ret { heap := h,
               objs := w.objs.set this
                 { t with end_ := t.end_.add 1, size_ := (t.size_ + 1) % SIZE_MOD } } ()

/-- The modifier `push_back(const T& value)` (lines 144-151). -/
def push_back {T : Type} [Fresh T] (granted : Bool) (w : World T) (this : Nat)
    (value : Arg T) : Outcome (World T) Unit :=
  match ensure_room granted w this with
  | .undefined => .undefined
  | .throw w1 e => .throw w1 e
  | .ret w1 _ => store_at_end w1 this value

/-- The modifier `push_back(T&& value)` (lines 153-160); moving out of the object
`value` is bound to stores the value that object holds. -/
def push_back_move {T : Type} [Fresh T] (granted : Bool) (w : World T) (this : Nat)
    (value : Arg T) : Outcome (World T) Unit :=
  match ensure_room granted w this with
  | .undefined => .undefined
  | .throw w1 e => .throw w1 e
  | .ret w1 _ => store_at_end w1 this value

/-- The modifier `pop_back()` (lines 162-168). -/
def pop_back {T : Type} (w : World T) (this : Nat) : Outcome (World T) Unit :=
  match w.objs[this]? with
  | none => .undefined
  | some t =>
    if t.size_ > 0 then
      .ret { w with objs := w.objs.set this
                      { t with end_ := t.end_.pred, size_ := t.size_ - 1 } } ()
    else .ret w ()

/-- The modifier `clear()` (lines 170-174). -/
def clear {T : Type} (w : World T) (this : Nat) : Outcome (World T) Unit :=
  match w.objs[this]? with
  | none => .undefined
  | some t =>
    .ret { w with objs := w.objs.set this { t with end_ := t.begin_, size_ := 0 } } ()

/-! ## Observations -/

/-- The value `c[i]` evaluates to: the element behind the reference `operator[]` returns,
`none` when the access throws. -/
def elem_at {T : Type} (w : World T) (this index : Nat) : Option T :=
  match operator_index w this index with
  | .ret w1 p => load w1.heap p
  | _ => none

/-- The live range `[begin_, end_)` of an object. -/
def live {T : Type} (w : World T) (this : Nat) : Option (List T) :=
  match w.objs[this]? with
  | none => none
  | some t => read_range w.heap t.begin_ t.end_

/-- The world a member function leaves behind, after a return as well as after a throw. -/
def Outcome.world? {σ α : Type} : Outcome σ α → Option σ
  | .ret s _ => some s
  | .throw s _ => some s
  | .undefined => none

/-- Representation invariant of one object: the pointer members agree with the counters,
the block is allocated with exactly `capacity_` elements, and `size_ ≤ capacity_`. -/
def wf {T : Type} (w : World T) (this : Nat) : Bool :=
  match w.objs[this]? with
  | none => false
  | some t =>
    match t.begin_ with
    | .null => t == ArcVector.empty
    | .elem b i =>
      i == 0 && t.end_ == .elem b t.size_ && t.allocationBegin_ == .elem b 0 &&
        t.allocationEnd_ == .elem b t.capacity_ && decide (t.size_ ≤ t.capacity_) &&
        decide (t.capacity_ ≤ MAX_ARRAY_LEN) &&
        (match w.heap[b]? with
         | some (some xs) => xs.length == t.capacity_
         | _ => false)

/-- The empty program state. -/
def World.init (T : Type) : World T := ⟨[], []⟩

/-- Abstraction relation: object `c` is well formed, owns block `blk` (`none` when its
pointers are null), has capacity `k` and live elements `xs`. -/
def Rep {T : Type} (w : World T) (c : Nat) (blk : Option Nat) (k : Nat) (xs : List T) :
    Prop :=
  match blk with
  | none => w.objs[c]? = some ArcVector.empty ∧ k = 0 ∧ xs = []
  | some b =>
    w.objs[c]? = some ⟨.elem b 0, .elem b xs.length, .elem b 0, .elem b k, xs.length, k⟩ ∧
      xs.length ≤ k ∧ k ≤ MAX_ARRAY_LEN ∧
      ∃ ys, w.heap[b]? = some (some ys) ∧ ys.length = k ∧ ys.take xs.length = xs

/-- What a member function called on object `c`, which owns block `blk`, leaves alone:
every other object and every other block that was allocated before the call. -/
def Frame {T : Type} (w w' : World T) (c : Nat) (blk : Option Nat) : Prop :=
  w.objs.length ≤ w'.objs.length ∧ (∀ d, d ≠ c → w'.objs[d]? = w.objs[d]?) ∧
    w.heap.length ≤ w'.heap.length ∧
    (∀ b, blk ≠ some b → b < w.heap.length → w'.heap[b]? = w.heap[b]?)

/-- The capacity `push_back` leaves behind on an object of size `n` and capacity `k`:
the argument of `reallocate` when `n = k` (line 147), and `k` otherwise. -/
def grown (n k : Nat) : Nat :=
  if n < k then k else if k = 0 then 1 else 2 * k

/-- The `begin_` member of an object. -/
def data {T : Type} (w : World T) (this : Nat) : Option Ptr :=
  match w.objs[this]? with
  | none => none
  | some t => some t.begin_

/-- The free store once the block `blk` of an object has been released. -/
def release {T : Type} (h : Heap T) : Option Nat → Heap T
  | none => h
  | some b => h.set b none

/-- Object `b` in state `w'` shows what object `a` shows in state `w`: the same size, the
same capacity, the same live range, and the same result of `operator[]` at every index. -/
def agree {T : Type} (w : World T) (a : Nat) (w' : World T) (b : Nat) : Prop :=
  size w' b = size w a ∧ capacity w' b = capacity w a ∧ live w' b = live w a ∧
    ∀ i, elem_at w' b i = elem_at w a i

/-- The `begin_` pointer of an object which owns block `blk`. -/
def block_ptr : Option Nat → Ptr
  | none => .null
  | some b => .elem b 0

/-! ## Runs of consecutive calls -/

/-- State of a run of consecutive `push_back` calls on one object: the outcome so far, and
the capacities installed by the growth steps so far, oldest first. -/
structure PushRun (T : Type) where
  out : Outcome (World T) Unit
  growths : List Nat

/-- One more call `push_back(a.2)` on object `c`, the allocator answering `a.1`.  The call
is a growth step when it starts with `size() == capacity()`.  An exception ends the run. -/
def push_next {T : Type} [Fresh T] (c : Nat) (r : PushRun T) (a : Bool × T) :
    PushRun T :=
  match r.out with
  | .ret w _ =>
    match push_back a.1 w c (.val a.2) with
    | .ret w1 u =>
      ⟨.ret w1 u,
        if size w c = capacity w c then r.growths ++ (capacity w1 c).toList else r.growths⟩
    | .throw w1 e => ⟨.throw w1 e, r.growths⟩
    | .undefined => ⟨.undefined, r.growths⟩
  | _ => r

/-- The calls `push_back(a.2)` for every `a` of `args`, in order, on object `c`. -/
def push_back_all {T : Type} [Fresh T] (w : World T) (c : Nat) (args : List (Bool × T)) :
    PushRun T :=
  args.foldl (push_next c) ⟨.ret w (), []⟩

/-- The capacity after `n` calls of `push_back` on a default-constructed container. -/
def cap_after (n : Nat) : Nat :=
  if n = 0 then 0 else 2 ^ Nat.clog 2 n

/-- The number of growth steps among the first `n` such calls. -/
def growths_after (n : Nat) : Nat :=
  if n = 0 then 0 else Nat.clog 2 n + 1

/-- A call of one of the modifiers; the argument of `push_back` is an object outside the
free store (a temporary or a variable) which holds `value`. -/
inductive Op (T : Type) where
  | push_back (granted : Bool) (value : T)
  | pop_back
  | clear

/-- Runs one modifier on object `c`. -/
def apply_op {T : Type} [Fresh T] (w : World T) (c : Nat) : Op T → Outcome (World T) Unit
  | .push_back g v => push_back g w c (.val v)
  | .pop_back => pop_back w c
  | .clear => clear w c

/-- Runs a sequence of modifiers on object `c`.  A caller which catches an exception
carries on from the state at the throw.  `none` when a call has undefined behaviour. -/
def run_ops {T : Type} [Fresh T] (w : World T) (c : Nat) : List (Op T) → Option (World T)
  | [] => some w
  | op :: rest =>
    match (apply_op w c op).world? with
    | none => none
    | some w1 => run_ops w1 c rest

/-- Objects `a` and `b` do not hold pointers into the same block. -/
def separate {T : Type} (w : World T) (a b : Nat) : Bool :=
  match data w a, data w b with
  | some (.elem x _), some (.elem y _) => x != y
  | _, _ => true

/-- The capacity in force when `push_back` executes `*end_++ = value` on an object whose
members were `t` at the call: the argument of `reallocate` when the call started with
`size_ == capacity_` (lines 146-147), and `capacity_` otherwise. -/
def capacity_at_write (t : ArcVector) : Nat :=
  if t.size_ = t.capacity_ then
    (if t.capacity_ = 0 then 1 else (t.capacity_ * 2) % SIZE_MOD)
  else t.capacity_

/-! ## Copying work -/

/-- The number of elements `reallocate` copies during the call `push_back` with the
allocator answering `granted`: the number which the opening statement of `push_back`
reports when it is run. -/
def push_back_copies {T : Type} [Fresh T] (granted : Bool) (w : World T) (this : Nat) :
    Nat :=
  match ensure_room granted w this with
  | .ret _ n => n
  | _ => 0

/-- State of a run of consecutive `push_back` calls on one object: the outcome so far, and
the number of elements `reallocate` has copied so far. -/
structure CopyRun (T : Type) where
  out : Outcome (World T) Unit
  copied : Nat

/-- One more call `push_back(a.2)` on object `c`, the allocator answering `a.1`. -/
def copy_next {T : Type} [Fresh T] (c : Nat) (r : CopyRun T) (a : Bool × T) :
    CopyRun T :=
  match r.out with
  | .ret w _ =>
    match push_back a.1 w c (.val a.2) with
    | .ret w1 u => ⟨.ret w1 u, r.copied + push_back_copies a.1 w c⟩
    | .throw w1 e => ⟨.throw w1 e, r.copied⟩
    | .undefined => ⟨.undefined, r.copied⟩
  | _ => r

/-- The calls `push_back(a.2)` for every `a` of `args`, in order, on object `c`, with the
copying work counted. -/
def push_back_copied {T : Type} [Fresh T] (w : World T) (c : Nat)
    (args : List (Bool × T)) : CopyRun T :=
  args.foldl (copy_next c) ⟨.ret w (), 0⟩

/-! ## Programs -/

/-- A call of a public operation which can change the state: the four constructors, the
two assignment operators and the modifiers, with their arguments (objects are named by
their ids).  The accessors and the queries change nothing. -/
inductive Call (T : Type) where
  | ctor_default
  | ctor_size (granted : Bool) (size : Nat)
  | ctor_copy (granted : Bool) (other : Nat)
  | ctor_move (other : Nat)
  | assign_copy (granted : Bool) (this other : Nat)
  | assign_move (this other : Nat)
  | push_back (granted : Bool) (this : Nat) (value : Arg T)
  | push_back_move (granted : Bool) (this : Nat) (value : Arg T)
  | pop_back (this : Nat)
  | clear (this : Nat)

/-- The state a call leaves behind, after a return as well as after a throw; `none` when
the call has undefined behaviour. -/
def exec {T : Type} [Fresh T] (w : World T) : Call T → Option (World T)
  | .ctor_default => (ctor_default w).world?
  | .ctor_size g n => (ctor_size g w n).world?
  | .ctor_copy g a => (ctor_copy g w a).world?
  | .ctor_move a => (ctor_move w a).world?
  | .assign_copy g t a => (operator_assign_copy g w t a).world?
  | .assign_move t a => (operator_assign_move w t a).world?
  | .push_back g c v => (push_back g w c v).world?
  | .push_back_move g c v => (push_back_move g w c v).world?
  | .pop_back c => (pop_back w c).world?
  | .clear c => (clear w c).world?

/-- Runs a program: a sequence of calls, in order.  The states `w` with
`run_calls (World.init T) calls = some w` are the states reachable through the public
operations. -/
def run_calls {T : Type} [Fresh T] (w : World T) : List (Call T) → Option (World T)
  | [] => some w
  | call :: rest =>
    match exec w call with
    | none => none
    | some w1 => run_calls w1 rest

/-- The block the `begin_` member of an object points into, if any. -/
def block_of {T : Type} (w : World T) (c : Nat) : Option Nat :=
  match data w c with
  | some (.elem b _) => some b
  | _ => none

/-- The invariant of the whole state: every object is well formed, and no two objects
own the same block. -/
def Sound {T : Type} (w : World T) : Prop :=
  (∀ d, d < w.objs.length → ∃ k xs, Rep w d (block_of w d) k xs) ∧
    (∀ a b x, a ≠ b → block_of w a = some x → block_of w b = some x → False)

/-- Pointer difference `p - q`; `none` when the two do not point into the same array. -/
def Ptr.diff : Ptr → Ptr → Option Int
  | .null, .null => some 0
  | .elem b i, .elem b' j => if b = b' then some ((i : Int) - (j : Int)) else none
  | _, _ => none

/-! ## Example states -/

/-- Example memory contents for `int`: element `i` of block `b` holds `100 * (b + 1) + i`
when it is handed out. -/
instance : Fresh Nat :=
  ⟨fun b i => 100 * (b + 1) + i⟩


/-- A container holding `[1, 2]` in a block of two elements (it is full). -/
def ex_full : World Nat :=
  ⟨[some [1, 2]], [⟨.elem 0 0, .elem 0 2, .elem 0 0, .elem 0 2, 2, 2⟩]⟩

/-- A container holding `[1, 2, 3]` in a block of four elements. -/
def ex_spare : World Nat :=
  ⟨[none, none, some [1, 2, 3, 0]], [⟨.elem 2 0, .elem 2 3, .elem 2 0, .elem 2 4, 3, 4⟩]⟩

/-- The state after `ArcVector<int> c;` in an empty program. -/
def ex_fresh : World Nat :=
  ⟨[], [⟨.null, .null, .null, .null, 0, 0⟩]⟩

/-- Three granted calls: `push_back(1); push_back(2); push_back(3);`. -/
def ex_args : List (Bool × Nat) :=
  [(true, 1), (true, 2), (true, 3)]

/-- Two containers: object 0 holds `[1, 2, 3]` in a block of four, object 1 holds `[7]`
in a block of one. -/
def ex_two : World Nat :=
  ⟨[some [1, 2, 3, 0], some [7]],
   [⟨.elem 0 0, .elem 0 3, .elem 0 0, .elem 0 4, 3, 4⟩,
    ⟨.elem 1 0, .elem 1 1, .elem 1 0, .elem 1 1, 1, 1⟩]⟩

/-- A sequence of modifier calls, one of which is refused its allocation. -/
def ex_ops : List (Op Nat) :=
  [.pop_back, .push_back true 8, .push_back false 9, .push_back true 9, .clear, .pop_back,
    .push_back true 5]

/-- A program which makes, copies, fills, moves and assigns three containers. -/
def ex_program : List (Call Nat) :=
  [.ctor_default, .push_back_move true 0 (.val 1), .push_back_move true 0 (.val 2),
    .ctor_copy true 0,
    .ctor_size true 2, .assign_move 2 0, .push_back false 1 (.val 9), .pop_back 2, .clear 1,
    .assign_copy true 0 2]

/-- The state `ex_program` ends in. -/
def ex_program_end : World Nat :=
  ⟨[none, some [1, 2], some [1, 2], none, some [1, 501]],
   [⟨.elem 4 0, .elem 4 1, .elem 4 0, .elem 4 2, 1, 2⟩,
    ⟨.elem 2 0, .elem 2 0, .elem 2 0, .elem 2 2, 0, 2⟩,
    ⟨.elem 1 0, .elem 1 1, .elem 1 0, .elem 1 2, 1, 2⟩]⟩

/-- The state after `ArcVector<int> c(2);` in an empty program, the block being handed
out as `Fresh.fresh` says. -/
def ex_sized : World Nat :=
  ⟨[some [100, 101]], [⟨.elem 0 0, .elem 0 2, .elem 0 0, .elem 0 2, 2, 2⟩]⟩

/-- The state after `ArcVector<int> a(0);` in an empty program. -/
def ex_zero : World Nat :=
  ⟨[some []], [⟨.elem 0 0, .elem 0 0, .elem 0 0, .elem 0 0, 0, 0⟩]⟩

/-- The state after `ArcVector<int> a; ArcVector<int> b(a);` in an empty program. -/
def ex_copy_of_empty : World Nat :=
  ⟨[some []],
   [⟨.null, .null, .null, .null, 0, 0⟩, ⟨.elem 0 0, .elem 0 0, .elem 0 0, .elem 0 0, 0, 0⟩]⟩

/-! ## Well-formed objects and what the observers return on them -/

@[simp]
theorem fresh_block_length {T : Type} [Fresh T] (b n : Nat) :
    (fresh_block b n : List T).length = n := by
  simp [fresh_block]

@[simp]
theorem fresh_block_zero {T : Type} [Fresh T] (b : Nat) :
    (fresh_block b 0 : List T) = [] := rfl

theorem fresh_block_get {T : Type} [Fresh T] (b n i : Nat) (hi : i < n) :
    (fresh_block b n : List T)[i]? = some (Fresh.fresh b i) := by
  simp [fresh_block, List.getElem?_map, List.getElem?_range hi]


theorem rep_of_wf {T : Type} {w : World T} {c : Nat} (h : wf w c = true) :
    ∃ blk k xs, Rep w c blk k xs := by
  unfold wf at h
  cases ho : w.objs[c]? with
  | none => simp [ho] at h
  | some t =>
    obtain ⟨b, e, ab, ae, n, k⟩ := t
    cases b with
    | null =>
      simp [ho] at h
      exact ⟨none, 0, [], by simp [Rep, ho, h]⟩
    | elem b i =>
      simp only [ho] at h
      cases hb : w.heap[b]? with
      | none => simp [hb] at h
      | some blkc =>
        cases blkc with
        | none => simp [hb] at h
        | some ys =>
          simp [hb] at h
          obtain ⟨⟨⟨⟨⟨⟨h1, h2⟩, h3⟩, h4⟩, h5⟩, h6⟩, h7⟩ := h
          subst h1 h2 h3 h4
          refine ⟨some b, k, ys.take n, ?_⟩
          have hn : (ys.take n).length = n := by simp [List.length_take]; omega
          simp only [Rep, hn]
          exact ⟨ho, h5, h6, ys, hb, h7, rfl⟩

theorem wf_of_rep {T : Type} {w : World T} {c : Nat} {blk : Option Nat} {k : Nat}
    {xs : List T} (h : Rep w c blk k xs) : wf w c = true := by
  cases blk with
  | none =>
    obtain ⟨ho, -, -⟩ := h
    simp [wf, ho, ArcVector.empty]
  | some b =>
    obtain ⟨ho, h1, h2, ys, hb, h3, -⟩ := h
    simp [wf, ho, hb, h1, h2, h3]

theorem rep_size {T : Type} {w : World T} {c : Nat} {blk : Option Nat} {k : Nat}
    {xs : List T} (h : Rep w c blk k xs) : size w c = some xs.length := by
  cases blk with
  | none => obtain ⟨ho, -, hx⟩ := h; simp [size, ho, hx, ArcVector.empty]
  | some b => obtain ⟨ho, -⟩ := h; simp [size, ho]

theorem rep_capacity {T : Type} {w : World T} {c : Nat} {blk : Option Nat} {k : Nat}
    {xs : List T} (h : Rep w c blk k xs) : capacity w c = some k := by
  cases blk with
  | none => obtain ⟨ho, hk, -⟩ := h; simp [capacity, ho, hk, ArcVector.empty]
  | some b => obtain ⟨ho, -⟩ := h; simp [capacity, ho]

theorem rep_live {T : Type} {w : World T} {c : Nat} {blk : Option Nat} {k : Nat}
    {xs : List T} (h : Rep w c blk k xs) : live w c = some xs := by
  cases blk with
  | none => obtain ⟨ho, -, hx⟩ := h; simp [live, ho, hx, ArcVector.empty, read_range]
  | some b =>
    obtain ⟨ho, h1, -, ys, hb, h3, h4⟩ := h
    simp [live, ho, read_range, hb, h3, h1, h4]

theorem rep_length_le {T : Type} {w : World T} {c : Nat} {blk : Option Nat} {k : Nat}
    {xs : List T} (h : Rep w c blk k xs) : xs.length ≤ k ∧ k ≤ MAX_ARRAY_LEN := by
  cases blk with
  | none => obtain ⟨-, hk, hx⟩ := h; simp [hk, hx]
  | some b => obtain ⟨-, h1, h2, -⟩ := h; exact ⟨h1, h2⟩

theorem rep_operator_index {T : Type} {w : World T} {c : Nat} {blk : Option Nat} {k : Nat}
    {xs : List T} (h : Rep w c blk k xs) (i : Nat) :
    (xs.length ≤ i → operator_index w c i = .throw w .out_of_range) ∧
      (i < xs.length → ∃ p, operator_index w c i = .ret w p ∧ load w.heap p = xs[i]?) := by
  cases blk with
  | none =>
    obtain ⟨ho, -, hx⟩ := h
    subst hx
    simp [operator_index, ho, ArcVector.empty]
  | some b =>
    obtain ⟨ho, h1, -, ys, hb, h3, h4⟩ := h
    constructor
    · intro hi
      simp [operator_index, ho, hi]
    · intro hi
      refine ⟨.elem b i, ?_, ?_⟩
      · simp [operator_index, ho, hi, Ptr.add]
      · simp only [load, hb]
        rw [← h4, List.getElem?_take_of_lt hi]

theorem rep_elem_at {T : Type} {w : World T} {c : Nat} {blk : Option Nat} {k : Nat}
    {xs : List T} (h : Rep w c blk k xs) (i : Nat) : elem_at w c i = xs[i]? := by
  rcases Nat.lt_or_ge i xs.length with hi | hi
  · obtain ⟨p, hp, hl⟩ := (rep_operator_index h i).2 hi
    simp [elem_at, hp, hl]
  · have := (rep_operator_index h i).1 hi
    simp [elem_at, this, List.getElem?_eq_none hi]

/-! ## Growth -/

theorem rep_obj_lt {T : Type} {w : World T} {c : Nat} {blk : Option Nat} {k : Nat}
    {xs : List T} (h : Rep w c blk k xs) : c < w.objs.length := by
  cases blk with
  | none =>
    obtain ⟨ho, -, -⟩ := h
    exact (List.getElem?_eq_some.1 ho).1
  | some b =>
    obtain ⟨ho, -⟩ := h
    exact (List.getElem?_eq_some.1 ho).1

theorem rep_obj {T : Type} {w : World T} {c : Nat} {blk : Option Nat} {k : Nat}
    {xs : List T} (h : Rep w c blk k xs) :
    ∃ t, w.objs[c]? = some t ∧ t.size_ = xs.length ∧ t.capacity_ = k := by
  cases blk with
  | none =>
    obtain ⟨ho, hk, hx⟩ := h
    exact ⟨_, ho, by simp [hx, ArcVector.empty], by simp [hk, ArcVector.empty]⟩
  | some b =>
    obtain ⟨ho, -⟩ := h
    exact ⟨_, ho, rfl, rfl⟩

theorem reallocate_throw {T : Type} [Fresh T] {w : World T} {c : Nat}
    {blk : Option Nat} {k : Nat} {xs : List T} (h : Rep w c blk k xs) (g : Bool) (m : Nat)
    (hno : ¬ (g = true ∧ m ≤ MAX_ARRAY_LEN)) :
    reallocate g w c m = .throw w .bad_alloc := by
  cases blk with
  | none =>
    obtain ⟨ho, -, -⟩ := h
    simp [reallocate, ho, new_array, hno]
  | some b =>
    obtain ⟨ho, -⟩ := h
    simp [reallocate, ho, new_array, hno]

theorem reallocate_rep {T : Type} [Fresh T] {w : World T} {c : Nat}
    {blk : Option Nat} {k : Nat} {xs : List T} (h : Rep w c blk k xs) (m : Nat)
    (hm : xs.length ≤ m) (hmax : m ≤ MAX_ARRAY_LEN) :
    ∃ w', reallocate true w c m = .ret w' xs.length ∧
      Rep w' c (some w.heap.length) m xs ∧ Frame w w' c blk := by
  have hc := rep_obj_lt h
  generalize hr : reallocate true w c m = r
  cases blk with
  | none =>
    obtain ⟨ho, hk, hx⟩ := h
    subst hk hx
    simp [reallocate, ho, new_array, hmax, ArcVector.empty, std_copy, read_range,
      write_range, delete_array] at hr
    subst hr
    refine ⟨_, rfl, ?_, ?_⟩
    · simp [Rep, hc, Ptr.add, hmax]
    · simp only [Frame, List.length_set, List.length_append, le_refl, true_and]
      refine ⟨fun d hd => List.getElem?_set_ne (Ne.symm hd), by omega, fun b _ hb => ?_⟩
      exact List.getElem?_append_left hb
  | some b =>
    obtain ⟨ho, h1, h2, ys, hb, h3, h4⟩ := h
    have hbl : b < w.heap.length := (List.getElem?_eq_some.1 hb).1
    simp [reallocate, ho, new_array, hmax, std_copy, read_range,
      write_range, delete_array, List.getElem?_append_left hbl, hb, h3, h1, h4, hm] at hr
    subst hr
    refine ⟨_, rfl, ?_, ?_⟩
    · have hne : b ≠ w.heap.length := Nat.ne_of_lt hbl
      simp only [Rep, Ptr.add, Nat.zero_add, List.getElem?_set_self hc, hm, hmax, true_and,
        List.getElem?_set_ne hne]
      refine ⟨xs ++ (fresh_block w.heap.length m).drop xs.length, by simp, ?_, by simp⟩
      simp only [List.length_append, List.length_drop, fresh_block_length]
      omega
    · simp only [Frame, List.length_set, List.length_append, le_refl, true_and]
      refine ⟨fun d hd => List.getElem?_set_ne (Ne.symm hd), by omega, fun b' hb' hlt => ?_⟩
      have hne : b ≠ b' := fun e => hb' (by rw [e])
      rw [List.getElem?_set_ne hne, List.getElem?_append_left hlt]

theorem max_array_len_lt : MAX_ARRAY_LEN < SIZE_MOD := by
  unfold MAX_ARRAY_LEN SIZE_MOD
  norm_num

theorem double_mod {k : Nat} (hk : k ≤ MAX_ARRAY_LEN) : (k * 2) % SIZE_MOD = 2 * k := by
  have : k * 2 < SIZE_MOD := by
    unfold MAX_ARRAY_LEN at hk
    unfold SIZE_MOD
    omega
  rw [Nat.mod_eq_of_lt this, Nat.mul_comm]

theorem frame_trans {T : Type} {w w1 w2 : World T} {c : Nat} {blk : Option Nat}
    (h1 : Frame w w1 c blk) (h2 : Frame w1 w2 c (some w.heap.length)) :
    Frame w w2 c blk := by
  obtain ⟨a1, a2, a3, a4⟩ := h1
  obtain ⟨b1, b2, b3, b4⟩ := h2
  refine ⟨a1.trans b1, fun d hd => (b2 d hd).trans (a2 d hd), a3.trans b3, fun b hb hlt => ?_⟩
  rw [b4 b (fun e => by simp at e; omega) (by omega), a4 b hb hlt]

theorem store_at_end_rep {T : Type} {w : World T} {c b k : Nat} {xs : List T}
    (h : Rep w c (some b) k xs) (hlt : xs.length < k) (v : T) :
    ∃ w', store_at_end w c (.val v) = .ret w' () ∧ Rep w' c (some b) k (xs ++ [v]) ∧
      Frame w w' c (some b) := by
  have hc := rep_obj_lt h
  obtain ⟨ho, h1, h2, ys, hb, h3, h4⟩ := h
  have hbl : b < w.heap.length := (List.getElem?_eq_some.1 hb).1
  have hmod : (xs.length + 1) % SIZE_MOD = xs.length + 1 := by
    have := max_array_len_lt
    exact Nat.mod_eq_of_lt (by omega)
  generalize hr : store_at_end w c (.val v) = r
  have hfit : xs.length + 1 ≤ ys.length := by omega
  simp [store_at_end, Arg.read, ho, write_range, hb, hfit, Ptr.add, hmod, h4] at hr
  subst hr
  refine ⟨_, rfl, ?_, ?_⟩
  · simp only [Rep, List.length_append, List.length_singleton, List.getElem?_set_self hc,
      List.getElem?_set_self hbl, true_and, h2]
    refine ⟨by omega, _, rfl, ?_, ?_⟩
    · simp only [List.length_append, List.length_cons, List.length_drop]
      omega
    · show List.take (xs.length + 1) (xs ++ ([v] ++ List.drop (xs.length + 1) ys)) = _
      rw [← List.append_assoc, List.take_left' (by simp)]
  · simp only [Frame, List.length_set, le_refl, true_and]
    refine ⟨fun d hd => List.getElem?_set_ne (Ne.symm hd), fun b' hb' _ => ?_⟩
    exact List.getElem?_set_ne (fun e => hb' (by rw [e]))

theorem push_back_throw {T : Type} [Fresh T] {w : World T} {c : Nat}
    {blk : Option Nat} {k : Nat} {xs : List T} (h : Rep w c blk k xs) (g : Bool) (v : T)
    (hno : ¬ (xs.length < k ∨ (g = true ∧ 2 * k ≤ MAX_ARRAY_LEN))) :
    push_back g w c (.val v) = .throw w .bad_alloc := by
  have hle := rep_length_le h
  have hnk : xs.length = k := by omega
  have hno' : ¬ (g = true ∧ (if k = 0 then 1 else (k * 2) % SIZE_MOD) ≤ MAX_ARRAY_LEN) := by
    rintro ⟨hg, hcap⟩
    apply hno
    right
    refine ⟨hg, ?_⟩
    by_cases hk0 : k = 0
    · simp [hk0]
    · rw [if_neg hk0, double_mod hle.2] at hcap
      exact hcap
  have hre := reallocate_throw h g _ hno'
  obtain ⟨t, ho, hts, htc⟩ := rep_obj h
  have heq : t.size_ = t.capacity_ := by omega
  simp only [push_back, ensure_room, ho, heq, if_true, htc, hre]

theorem push_back_rep {T : Type} [Fresh T] {w : World T} {c : Nat}
    {blk : Option Nat} {k : Nat} {xs : List T} (h : Rep w c blk k xs) (g : Bool) (v : T)
    (hroom : xs.length < k ∨ (g = true ∧ 2 * k ≤ MAX_ARRAY_LEN)) :
    ∃ w' b', push_back g w c (.val v) = .ret w' () ∧
      Rep w' c (some b') (grown xs.length k) (xs ++ [v]) ∧
      (some b' = blk ∧ xs.length < k ∨ b' = w.heap.length ∧ xs.length = k) ∧
      Frame w w' c blk := by
  have hle := rep_length_le h
  obtain ⟨t, ho, hts, htc⟩ := rep_obj h
  by_cases hlt : xs.length < k
  · cases blk with
    | none =>
      obtain ⟨-, hk, -⟩ := h
      omega
    | some b =>
      obtain ⟨w', hw', hrep, hfr⟩ := store_at_end_rep h hlt v
      refine ⟨w', b, ?_, ?_, Or.inl ⟨rfl, hlt⟩, hfr⟩
      · have hne : ¬ t.size_ = t.capacity_ := by omega
        simp only [push_back, ensure_room, ho, hne, if_false]
        exact hw'
      · simpa [grown, hlt] using hrep
  · have hnk : xs.length = k := by omega
    obtain ⟨hg, h2k⟩ := hroom.resolve_left hlt
    have hnew : (if k = 0 then 1 else (k * 2) % SIZE_MOD) = grown xs.length k := by
      simp only [grown, hlt, if_false]
      by_cases hk0 : k = 0
      · simp [hk0]
      · simp only [hk0, if_false]
        exact double_mod hle.2
    have hgl : xs.length < grown xs.length k := by
      simp only [grown, hlt, if_false]
      by_cases hk0 : k = 0
      · rw [if_pos hk0]; omega
      · rw [if_neg hk0]; omega
    have hgm : grown xs.length k ≤ MAX_ARRAY_LEN := by
      simp only [grown, hlt, if_false]
      by_cases hk0 : k = 0
      · simp [hk0, MAX_ARRAY_LEN]
      · simp only [hk0, if_false]; exact h2k
    obtain ⟨w1, hw1, hrep1, hfr1⟩ := reallocate_rep h (grown xs.length k) (by omega) hgm
    obtain ⟨w', hw', hrep, hfr⟩ := store_at_end_rep hrep1 hgl v
    refine ⟨w', w.heap.length, ?_, hrep, Or.inr ⟨rfl, hnk⟩, frame_trans hfr1 hfr⟩
    have heq : t.size_ = t.capacity_ := by omega
    simp only [push_back, ensure_room, ho, heq, if_true, htc, hnew, hg, hw1]
    exact hw'

theorem ensure_room_spare {T : Type} [Fresh T] {w : World T} {c : Nat}
    {blk : Option Nat} {k : Nat} {xs : List T} (h : Rep w c blk k xs) (g : Bool)
    (hlt : xs.length < k) : ensure_room g w c = .ret w 0 := by
  obtain ⟨t, ho, hts, htc⟩ := rep_obj h
  have hne : ¬ t.size_ = t.capacity_ := by omega
  simp only [ensure_room, ho, hne, if_false]

theorem ensure_room_full {T : Type} [Fresh T] {w : World T} {c : Nat}
    {blk : Option Nat} {k : Nat} {xs : List T} (h : Rep w c blk k xs) (g : Bool)
    (hnk : xs.length = k) :
    ensure_room g w c = reallocate g w c (grown xs.length k) := by
  have hle := rep_length_le h
  obtain ⟨t, ho, hts, htc⟩ := rep_obj h
  have heq : t.size_ = t.capacity_ := by omega
  have hnew : (if k = 0 then 1 else (k * 2) % SIZE_MOD) = grown xs.length k := by
    simp only [grown, hnk, Nat.lt_irrefl, if_false]
    by_cases hk0 : k = 0
    · simp [hk0]
    · simp only [hk0, if_false]
      exact double_mod hle.2
  simp only [ensure_room, ho, heq, if_true, htc, hnew]

theorem rep_of_obs {T : Type} {w : World T} {c : Nat} {k : Nat} {xs : List T}
    (hwf : wf w c = true) (hlive : live w c = some xs) (hcap : capacity w c = some k) :
    ∃ blk, Rep w c blk k xs := by
  obtain ⟨blk, k', xs', h⟩ := rep_of_wf hwf
  have h1 := rep_live h
  have h2 := rep_capacity h
  rw [hlive] at h1
  rw [hcap] at h2
  injection h1 with h1
  injection h2 with h2
  subst h1 h2
  exact ⟨blk, h⟩

/-! ## C1: `push_back` appends -/

/-- Appending an object which is not an element of a block.  For every well-formed
container `c` with live elements `xs` and capacity `k`, and every value `v` held by a
temporary or a variable: when `c` has spare capacity, or the allocator grants the grown
block, `push_back(v)` (either overload) returns, and afterwards the size is
`xs.length + 1`, `c[xs.length]` is `v`, `c[i]` is still `xs[i]` for every `i < xs.length`,
and the live range is `xs` followed by `v`.  In the remaining case, a growth whose
allocation is refused, the call throws `std::bad_alloc` and changes nothing. -/
theorem push_back_appends {T : Type} [Fresh T] (w : World T) (c : Nat) (v : T)
    (granted : Bool) (xs : List T) (k : Nat)
    (hwf : wf w c = true) (hlive : live w c = some xs) (hcap : capacity w c = some k) :
    ((xs.length < k ∨ (granted = true ∧ 2 * k ≤ MAX_ARRAY_LEN)) →
      ∃ w', push_back granted w c (.val v) = .ret w' () ∧
        push_back_move granted w c (.val v) = .ret w' () ∧
        size w' c = some (xs.length + 1) ∧
        elem_at w' c xs.length = some v ∧
        (∀ i, i < xs.length → elem_at w' c i = xs[i]?) ∧
        live w' c = some (xs ++ [v])) ∧
    (¬ (xs.length < k ∨ (granted = true ∧ 2 * k ≤ MAX_ARRAY_LEN)) →
      push_back granted w c (.val v) = .throw w .bad_alloc ∧
        push_back_move granted w c (.val v) = .throw w .bad_alloc) := by
  obtain ⟨blk, h⟩ := rep_of_obs hwf hlive hcap
  constructor
  · intro hroom
    obtain ⟨w', b', hw', hrep, -, -⟩ := push_back_rep h granted v hroom
    refine ⟨w', hw', hw', ?_, ?_, ?_, rep_live hrep⟩
    · simpa using rep_size hrep
    · rw [rep_elem_at hrep]
      simp
    · intro i hi
      rw [rep_elem_at hrep, List.getElem?_append_left hi]
  · intro hno
    exact ⟨push_back_throw h granted v hno, push_back_throw h granted v hno⟩

/-- Appending `3`, held by a temporary, to the full container `[1, 2]`: with the
allocation granted the call reallocates and yields `[1, 2, 3]`; with the allocation
refused it throws and changes nothing. -/
theorem push_back_appends_witness :
    (∃ w', push_back true ex_full 0 (.val 3) = .ret w' () ∧
      push_back_move true ex_full 0 (.val 3) = .ret w' () ∧
      size w' 0 = some 3 ∧ elem_at w' 0 2 = some 3 ∧
      (∀ i, i < 2 → elem_at w' 0 i = [1, 2][i]?) ∧
      live w' 0 = some [1, 2, 3]) ∧
    (push_back false ex_full 0 (.val 3) = .throw ex_full .bad_alloc ∧
      push_back_move false ex_full 0 (.val 3) = .throw ex_full .bad_alloc) :=
  ⟨(push_back_appends ex_full 0 3 true [1, 2] 2 (by decide) (by decide) (by decide)).1
      (Or.inr ⟨rfl, by decide⟩),
    (push_back_appends ex_full 0 3 false [1, 2] 2 (by decide) (by decide) (by decide)).2
      (by decide)⟩

/-- Appending an element of a block.  When the argument of `push_back` refers to the
element `i` of block `b`, which holds `v`, and either the container has spare capacity or
`b` is not the container's own block, the call does what it does for a temporary which
holds `v`. -/
theorem push_back_reference {T : Type} [Fresh T] {w : World T} {c : Nat}
    {blk : Option Nat} {k : Nat} {xs : List T} (h : Rep w c blk k xs) (g : Bool)
    (b i : Nat) (v : T) (hl : load w.heap (.elem b i) = some v)
    (hout : xs.length < k ∨ blk ≠ some b) :
    push_back g w c (.ref (.elem b i)) = push_back g w c (.val v) ∧
      push_back_move g w c (.ref (.elem b i)) = push_back_move g w c (.val v) := by
  have hle := rep_length_le h
  have key : ∀ w1 n, ensure_room g w c = .ret w1 n →
      store_at_end w1 c (.ref (.elem b i)) = store_at_end w1 c (.val v) := by
    intro w1 n he
    have hl1 : load w1.heap (.elem b i) = some v := by
      by_cases hlt : xs.length < k
      · rw [ensure_room_spare h g hlt] at he
        injection he with he _
        rw [← he]
        exact hl
      · have hne := hout.resolve_left hlt
        have hnk : xs.length = k := by omega
        rw [ensure_room_full h g hnk] at he
        have hbl : b < w.heap.length := by
          by_contra hge
          simp [load, List.getElem?_eq_none (Nat.le_of_not_lt hge)] at hl
        by_cases hg : g = true ∧ grown xs.length k ≤ MAX_ARRAY_LEN
        · obtain ⟨hg1, hmax⟩ := hg
          subst hg1
          have hgl : xs.length ≤ grown xs.length k := by
            simp only [grown, hlt, if_false]
            split <;> omega
          obtain ⟨w2, hw2, -, hfr⟩ := reallocate_rep h (grown xs.length k) hgl hmax
          rw [hw2] at he
          injection he with he _
          subst he
          have hget := hfr.2.2.2 b hne hbl
          simp only [load, hget] at hl ⊢
          exact hl
        · rw [reallocate_throw h g _ hg] at he
          cases he
    simp only [store_at_end, Arg.read, hl1]
  have main : push_back g w c (.ref (.elem b i)) = push_back g w c (.val v) := by
    unfold push_back
    cases he : ensure_room g w c with
    | ret w1 n => exact key w1 n he
    | throw w1 e => rfl
    | undefined => rfl
  exact ⟨main, main⟩

/-- C1, the input on which the code fails.  The container `c = [1, 2]` is full
(capacity 2) and the call is `c.push_back(c[0])`: `c[0]` returns a reference to element 0
of the block of `c`, which holds `1`.  The call grows: `reallocate` copies both elements
into a new block and releases the old one (`delete[] begin_`, line 180), the block the
argument refers into; `*end_++ = value` (line 149, line 158) then reads the released
element, which is undefined behaviour, in both overloads.  The same value passed in a
temporary gives `[1, 2, 1]`. -/
theorem push_back_self_reference :
    operator_index ex_full 0 0 = .ret ex_full (.elem 0 0) ∧
    load ex_full.heap (.elem 0 0) = some 1 ∧
    (∃ w1, ensure_room true ex_full 0 = .ret w1 2 ∧ live w1 0 = some [1, 2] ∧
      load w1.heap (.elem 0 0) = none ∧
      store_at_end w1 0 (.ref (.elem 0 0)) = .undefined) ∧
    push_back true ex_full 0 (.ref (.elem 0 0)) = .undefined ∧
    push_back_move true ex_full 0 (.ref (.elem 0 0)) = .undefined ∧
    (∃ w', push_back true ex_full 0 (.val 1) = .ret w' () ∧ live w' 0 = some [1, 2, 1]) :=
  ⟨rfl, rfl, ⟨_, rfl, rfl, rfl, rfl⟩, rfl, rfl, ⟨_, rfl, rfl⟩⟩

/-! ## C2: bounds-checked access -/

/-- C2. For every well-formed container `c` with live elements `xs` and every index `i`:
`operator[]` (mutable and const) throws exactly when `i ≥ size()`; a throwing access
throws `std::out_of_range` and leaves the whole state (size, capacity, elements) as it
was; for `i < size()` it returns, without changing the state, a reference to the `i`-th
live element.  The capacity plays no part: indices in `[size, capacity)` throw too. -/
theorem operator_index_checked {T : Type} (w : World T) (c i : Nat) (xs : List T)
    (hwf : wf w c = true) (hlive : live w c = some xs) :
    size w c = some xs.length ∧
    ((∃ w' e, operator_index w c i = .throw w' e) ↔ xs.length ≤ i) ∧
    ((∃ w' e, operator_index_const w c i = .throw w' e) ↔ xs.length ≤ i) ∧
    (xs.length ≤ i →
      operator_index w c i = .throw w .out_of_range ∧
        operator_index_const w c i = .throw w .out_of_range) ∧
    (∀ hi : i < xs.length, ∃ p,
      operator_index w c i = .ret w p ∧ operator_index_const w c i = .ret w p ∧
        load w.heap p = some xs[i]) := by
  obtain ⟨blk, k, xs', h⟩ := rep_of_wf hwf
  have hl := rep_live h
  rw [hlive] at hl
  injection hl with hl
  subst hl
  have hidx := rep_operator_index h i
  have hconst : operator_index_const w c i = operator_index w c i := rfl
  have hiff : (∃ w' e, operator_index w c i = .throw w' e) ↔ xs.length ≤ i := by
    constructor
    · rintro ⟨w', e, he⟩
      by_contra hlt
      obtain ⟨p, hp, -⟩ := hidx.2 (by omega)
      rw [hp] at he
      cases he
    · intro hi
      exact ⟨w, .out_of_range, hidx.1 hi⟩
  refine ⟨rep_size h, hiff, by rw [hconst]; exact hiff, ?_, ?_⟩
  · intro hi
    exact ⟨hidx.1 hi, by rw [hconst]; exact hidx.1 hi⟩
  · intro hi
    obtain ⟨p, hp, hload⟩ := hidx.2 hi
    refine ⟨p, hp, by rw [hconst]; exact hp, ?_⟩
    rw [hload, List.getElem?_eq_getElem hi]

/-- C2 at `[1, 2, 3]` with capacity 4: index 3 lies below the capacity and still throws,
index 1 yields a reference to the element `2`. -/
theorem operator_index_checked_witness :
    (operator_index ex_spare 0 3 = .throw ex_spare .out_of_range ∧
      operator_index_const ex_spare 0 3 = .throw ex_spare .out_of_range) ∧
    (∃ p, operator_index ex_spare 0 1 = .ret ex_spare p ∧
      operator_index_const ex_spare 0 1 = .ret ex_spare p ∧
      load ex_spare.heap p = some 2) :=
  ⟨(operator_index_checked ex_spare 0 3 [1, 2, 3] (by decide) (by decide)).2.2.2.1
      (by decide),
    (operator_index_checked ex_spare 0 1 [1, 2, 3] (by decide) (by decide)).2.2.2.2
      (by decide)⟩

/-! ## C3: the capacity after one `push_back` -/

theorem write_range_length {T : Type} {h h' : Heap T} {d : Ptr} {vs : List T}
    (hw : write_range h d vs = some h') : h'.length = h.length := by
  unfold write_range at hw
  split at hw
  · split at hw
    · injection hw with hw; rw [← hw]
    · cases hw
  · split at hw
    · split at hw
      · injection hw with hw; rw [← hw, List.length_set]
      · cases hw
    · cases hw

theorem store_at_end_keeps_block {T : Type} {w w' : World T} {c : Nat} {v : T}
    (h : store_at_end w c (.val v) = .ret w' ()) :
    w'.heap.length = w.heap.length ∧ data w' c = data w c := by
  simp only [store_at_end, Arg.read] at h
  split at h
  · cases h
  · rename_i t ho
    split at h
    · cases h
    · rename_i hp hwr
      injection h with h
      subst h
      have hc : c < w.objs.length := (List.getElem?_eq_some.1 ho).1
      exact ⟨write_range_length hwr, by simp [data, ho, List.getElem?_set_self hc]⟩

theorem push_back_eq_store {T : Type} [Fresh T] {w : World T} {c : Nat}
    {t : ArcVector} (ho : w.objs[c]? = some t) (hne : t.size_ ≠ t.capacity_) (g : Bool)
    (v : T) : push_back g w c (.val v) = store_at_end w c (.val v) := by
  simp only [push_back, ensure_room, ho, hne, if_false]

theorem rep_of_size_cap {T : Type} {w : World T} {c : Nat} {n k : Nat}
    (hwf : wf w c = true) (hsize : size w c = some n) (hcap : capacity w c = some k) :
    ∃ blk xs, Rep w c blk k xs ∧ xs.length = n := by
  obtain ⟨blk, k', xs, h⟩ := rep_of_wf hwf
  have h1 := rep_size h
  have h2 := rep_capacity h
  rw [hsize] at h1
  rw [hcap] at h2
  injection h1 with h1
  injection h2 with h2
  subst h2
  exact ⟨blk, xs, h, h1.symm⟩

/-- C3. For every well-formed container of size `n` and capacity `k`, one `push_back`
(either overload) does this to the capacity.  If `n < k` the call returns with the
capacity still `k`, in the same block and without allocating one.  If `n = k` and the
allocator grants the request, the call returns with capacity `1` when `k = 0` and `2 * k`
otherwise (the product cannot wrap, as no block has more than `MAX_ARRAY_LEN` elements);
if the request is refused the call throws `std::bad_alloc` and changes nothing. -/
theorem push_back_capacity {T : Type} [Fresh T] (w : World T) (c : Nat) (v : T)
    (granted : Bool) (n k : Nat)
    (hwf : wf w c = true) (hsize : size w c = some n) (hcap : capacity w c = some k) :
    (n < k →
      ∃ w', push_back granted w c (.val v) = .ret w' () ∧
        push_back_move granted w c (.val v) = .ret w' () ∧
        capacity w' c = some k ∧ data w' c = data w c ∧
        w'.heap.length = w.heap.length) ∧
    (n = k →
      (k * 2) % SIZE_MOD = 2 * k ∧
      ((granted = true ∧ 2 * k ≤ MAX_ARRAY_LEN) →
        ∃ w', push_back granted w c (.val v) = .ret w' () ∧
          push_back_move granted w c (.val v) = .ret w' () ∧
          capacity w' c = some (if k = 0 then 1 else 2 * k)) ∧
      (¬ (granted = true ∧ 2 * k ≤ MAX_ARRAY_LEN) →
        push_back granted w c (.val v) = .throw w .bad_alloc ∧
          push_back_move granted w c (.val v) = .throw w .bad_alloc)) := by
  obtain ⟨blk, xs, h, hn⟩ := rep_of_size_cap hwf hsize hcap
  subst hn
  have hle := rep_length_le h
  constructor
  · intro hlt
    obtain ⟨w', b', hw', hrep, -, -⟩ := push_back_rep h granted v (Or.inl hlt)
    obtain ⟨t, ho, hts, htc⟩ := rep_obj h
    have hst : store_at_end w c (.val v) = .ret w' () := by
      rw [← push_back_eq_store ho (by omega) granted v]
      exact hw'
    have hk := store_at_end_keeps_block hst
    refine ⟨w', hw', hw', ?_, hk.2, hk.1⟩
    simpa [grown, hlt] using rep_capacity hrep
  · intro hnk
    refine ⟨double_mod hle.2, ?_, ?_⟩
    · intro hg
      obtain ⟨w', b', hw', hrep, -, -⟩ := push_back_rep h granted v (Or.inr hg)
      refine ⟨w', hw', hw', ?_⟩
      have hnlt : ¬ xs.length < k := by omega
      simpa [grown, hnlt] using rep_capacity hrep
    · intro hno
      have hno' : ¬ (xs.length < k ∨ (granted = true ∧ 2 * k ≤ MAX_ARRAY_LEN)) := by
        rintro (h1 | h1)
        · omega
        · exact hno h1
      exact ⟨push_back_throw h granted v hno', push_back_throw h granted v hno'⟩

/-- C3 at `[1, 2, 3]` with capacity 4, where the capacity stays 4 and no block is
allocated, and at the full container `[1, 2]`, where the capacity becomes 4. -/
theorem push_back_capacity_witness :
    (∃ w', push_back true ex_spare 0 (.val 9) = .ret w' () ∧
      push_back_move true ex_spare 0 (.val 9) = .ret w' () ∧
      capacity w' 0 = some 4 ∧ data w' 0 = data ex_spare 0 ∧
      w'.heap.length = ex_spare.heap.length) ∧
    (∃ w', push_back true ex_full 0 (.val 9) = .ret w' () ∧
      push_back_move true ex_full 0 (.val 9) = .ret w' () ∧
      capacity w' 0 = some (if 2 = 0 then 1 else 2 * 2)) :=
  ⟨(push_back_capacity ex_spare 0 9 true 3 4 (by decide) (by decide) (by decide)).1
      (by decide),
    ((push_back_capacity ex_full 0 9 true 2 2 (by decide) (by decide) (by decide)).2
      rfl).2.1 ⟨rfl, by decide⟩⟩

/-! ## C4 and C5: repeated `push_back` on a default-constructed container -/

theorem cap_after_succ (n : Nat) :
    grown n (cap_after n) = cap_after (n + 1) ∧
      (n = cap_after n → growths_after (n + 1) = growths_after n + 1 ∧
        cap_after (n + 1) = 2 ^ growths_after n) ∧
      (n ≠ cap_after n → growths_after (n + 1) = growths_after n) := by
  by_cases hn : n = 0
  · subst hn
    simp [grown, cap_after, growths_after]
  · have hpos : 1 ≤ n := Nat.one_le_iff_ne_zero.2 hn
    have hle : n ≤ 2 ^ Nat.clog 2 n := Nat.le_pow_clog (by norm_num) n
    have hpow : 0 < 2 ^ Nat.clog 2 n := Nat.pos_pow_of_pos _ (by norm_num)
    simp only [cap_after, growths_after, hn, if_false, Nat.succ_ne_zero, grown]
    by_cases hlt : n < 2 ^ Nat.clog 2 n
    · have hc : Nat.clog 2 (n + 1) = Nat.clog 2 n := by
        apply le_antisymm
        · exact (Nat.le_pow_iff_clog_le (by norm_num)).1 hlt
        · exact Nat.clog_mono_right 2 (Nat.le_succ n)
      simp only [hlt, if_true, hc, true_and]
      exact ⟨fun h => absurd h (Nat.ne_of_lt hlt), fun _ => trivial⟩
    · have heq : n = 2 ^ Nat.clog 2 n := by omega
      have hc : Nat.clog 2 (n + 1) = Nat.clog 2 n + 1 := by
        apply le_antisymm
        · apply (Nat.le_pow_iff_clog_le (by norm_num)).1
          rw [pow_succ]
          omega
        · apply (Nat.pow_lt_iff_lt_clog (by norm_num)).1
          omega
      have hne : ¬ 2 ^ Nat.clog 2 n = 0 := by omega
      simp only [hlt, if_false, hne, hc, pow_succ]
      refine ⟨by omega, fun _ => ⟨trivial, trivial⟩, fun h => absurd heq h⟩

theorem push_back_all_snoc {T : Type} [Fresh T] (w : World T) (c : Nat)
    (l : List (Bool × T)) (a : Bool × T) :
    push_back_all w c (l ++ [a]) = push_next c (push_back_all w c l) a := by
  simp [push_back_all, List.foldl_append]

theorem push_next_ret {T : Type} [Fresh T] {c : Nat} {r : PushRun T} {a : Bool × T}
    {w' : World T} (h : (push_next c r a).out = .ret w' ()) :
    ∃ w1, r.out = .ret w1 () ∧ push_back a.1 w1 c (.val a.2) = .ret w' () ∧
      (push_next c r a).growths =
        if size w1 c = capacity w1 c then r.growths ++ (capacity w' c).toList
        else r.growths := by
  unfold push_next at h ⊢
  cases hr : r.out with
  | ret w1 u =>
    simp only [hr] at h ⊢
    cases hp : push_back a.1 w1 c (.val a.2) with
    | ret w2 u2 =>
      simp only [hp] at h ⊢
      injection h with h1 h2
      subst h1
      exact ⟨w1, rfl, hp, rfl⟩
    | throw w2 e => simp [hp] at h
    | undefined => simp [hp] at h
  | throw w1 e => simp [hr] at h
  | undefined => simp [hr] at h

theorem push_back_all_fresh {T : Type} [Fresh T] {w0 : World T} {c : Nat}
    (h0 : Rep w0 c none 0 []) (args : List (Bool × T)) (w' : World T)
    (hret : (push_back_all w0 c args).out = .ret w' ()) :
    (∃ blk, Rep w' c blk (cap_after args.length) (args.map Prod.snd)) ∧
      (push_back_all w0 c args).growths =
        (List.range (growths_after args.length)).map (2 ^ ·) := by
  induction args using List.reverseRecOn generalizing w' with
  | nil =>
    simp only [push_back_all, List.foldl_nil] at hret ⊢
    injection hret with h1
    subst h1
    exact ⟨⟨none, by simpa [cap_after] using h0⟩, by simp [growths_after]⟩
  | append_singleton l a ih =>
    rw [push_back_all_snoc] at hret ⊢
    obtain ⟨w1, hr1, hpush, hgrow⟩ := push_next_ret hret
    obtain ⟨⟨blk, hrep⟩, hg⟩ := ih w1 hr1
    have hlen : (l.map Prod.snd).length = l.length := by simp
    have harith := cap_after_succ l.length
    by_cases hroom : (l.map Prod.snd).length < cap_after l.length ∨
        (a.1 = true ∧ 2 * cap_after l.length ≤ MAX_ARRAY_LEN)
    · obtain ⟨w2, b', hw2, hrep2, -, -⟩ := push_back_rep hrep a.1 a.2 hroom
      rw [hpush] at hw2
      injection hw2 with hw2
      subst hw2
      rw [hlen, harith.1] at hrep2
      refine ⟨⟨some b', by simpa using hrep2⟩, ?_⟩
      rw [hgrow, rep_size hrep, rep_capacity hrep, rep_capacity hrep2, hg, hlen]
      simp only [List.length_append, List.length_singleton, Option.some.injEq]
      by_cases heq : l.length = cap_after l.length
      · obtain ⟨hga, hca⟩ := harith.2.1 heq
        rw [if_pos heq, hga, List.range_succ, List.map_append, hca]
        simp
      · rw [if_neg heq, harith.2.2 heq]
    · rw [push_back_throw hrep a.1 a.2 hroom] at hpush
      cases hpush

theorem cap_after_mono (n : Nat) : cap_after n ≤ cap_after (n + 1) := by
  rw [← (cap_after_succ n).1]
  unfold grown
  split
  · exact le_refl _
  · split <;> omega

theorem push_back_all_returns {T : Type} [Fresh T] {w0 : World T} {c : Nat}
    (h0 : Rep w0 c none 0 []) (args : List (Bool × T))
    (hg : ∀ a ∈ args, a.1 = true) (hN : cap_after args.length ≤ MAX_ARRAY_LEN) :
    ∃ w', (push_back_all w0 c args).out = .ret w' () := by
  induction args using List.reverseRecOn with
  | nil => exact ⟨w0, rfl⟩
  | append_singleton l a ih =>
    have hN' : cap_after (l.length + 1) ≤ MAX_ARRAY_LEN := by simpa using hN
    obtain ⟨w1, hr1⟩ := ih (fun x hx => hg x (by simp [hx]))
      (le_trans (cap_after_mono _) hN')
    obtain ⟨⟨blk, hrep⟩, -⟩ := push_back_all_fresh h0 l w1 hr1
    have hlen : (l.map Prod.snd).length = l.length := by simp
    have ha : a.1 = true := hg a (by simp)
    have hroom : (l.map Prod.snd).length < cap_after l.length ∨
        (a.1 = true ∧ 2 * cap_after l.length ≤ MAX_ARRAY_LEN) := by
      rw [hlen]
      by_cases hlt : l.length < cap_after l.length
      · exact Or.inl hlt
      · right
        refine ⟨ha, ?_⟩
        have h1 := (cap_after_succ l.length).1
        simp only [grown, hlt, if_false] at h1
        split at h1 <;> omega
    obtain ⟨w2, b', hw2, -, -, -⟩ := push_back_rep hrep a.1 a.2 hroom
    refine ⟨w2, ?_⟩
    rw [push_back_all_snoc]
    simp only [push_next, hr1, hw2]

theorem cap_after_le_of_le {n : Nat} (hn : n ≤ 2 ^ 62) : cap_after n ≤ MAX_ARRAY_LEN := by
  unfold cap_after
  split
  · exact Nat.zero_le _
  · have h1 : Nat.clog 2 n ≤ 62 := (Nat.le_pow_iff_clog_le (by norm_num)).1 hn
    have h2 : 2 ^ Nat.clog 2 n ≤ 2 ^ 62 := Nat.pow_le_pow_right (by norm_num) h1
    unfold MAX_ARRAY_LEN
    omega

theorem ctor_default_rep {T : Type} {w w0 : World T} {c : Nat}
    (h0 : ctor_default w = .ret w0 c) : Rep w0 c none 0 [] ∧ c = w.objs.length := by
  unfold ctor_default at h0
  injection h0 with h1 h2
  subst h1 h2
  simp [Rep, ArcVector.empty]

/-- C4. Let `c` be default-constructed and let `N` calls of `push_back` follow, with any
values and any answers of the allocator.  Whenever all `N` calls return, `size() == N`
and `capacity() >= N`.  They do all return when the allocator grants every request and
`N ≤ 2 ^ 62` (beyond that the grown block would exceed `MAX_ARRAY_LEN`). -/
theorem size_after_pushes {T : Type} [Fresh T] (w w0 : World T) (c : Nat)
    (args : List (Bool × T)) (h0 : ctor_default w = .ret w0 c) :
    (∀ w', (push_back_all w0 c args).out = .ret w' () →
      size w' c = some args.length ∧
        ∃ k, capacity w' c = some k ∧ args.length ≤ k) ∧
    ((∀ a ∈ args, a.1 = true) → args.length ≤ 2 ^ 62 →
      ∃ w', (push_back_all w0 c args).out = .ret w' ()) := by
  have hrep0 := (ctor_default_rep h0).1
  constructor
  · intro w' hret
    obtain ⟨⟨blk, hrep⟩, -⟩ := push_back_all_fresh hrep0 args w' hret
    refine ⟨by simpa using rep_size hrep, _, rep_capacity hrep, ?_⟩
    simpa using (rep_length_le hrep).1
  · intro hg hN
    exact push_back_all_returns hrep0 args hg (cap_after_le_of_le hN)

/-- C4 for three calls on a default-constructed container. -/
theorem size_after_pushes_witness :
    ∃ w', (push_back_all ex_fresh 0 ex_args).out = .ret w' () ∧
      size w' 0 = some 3 ∧ ∃ k, capacity w' 0 = some k ∧ 3 ≤ k :=
  have h := size_after_pushes (World.init Nat) ex_fresh 0 ex_args rfl
  (h.2 (by decide) (by decide)).elim fun w' hw' => ⟨w', hw', h.1 w' hw'⟩

/-- C5. Let `c` be default-constructed and let `N ≥ 1` calls of `push_back` follow.
Whenever all of them return, the capacity is `2 ^ j` for the least `j` with `N ≤ 2 ^ j`
(the smallest power of two that is at least `N`), and the growth steps of the run
installed the capacities `1, 2, 4, …, 2 ^ j` in this order: the `k`-th growth yields
`2 ^ (k - 1)`.  The calls do all return when the allocator grants every request and
`N ≤ 2 ^ 62`. -/
theorem capacity_after_pushes {T : Type} [Fresh T] (w w0 : World T) (c : Nat)
    (args : List (Bool × T)) (h0 : ctor_default w = .ret w0 c) (hN : 1 ≤ args.length) :
    (∀ w', (push_back_all w0 c args).out = .ret w' () →
      ∃ j, capacity w' c = some (2 ^ j) ∧ args.length ≤ 2 ^ j ∧
        (∀ i, args.length ≤ 2 ^ i → j ≤ i) ∧
        (push_back_all w0 c args).growths = (List.range (j + 1)).map (2 ^ ·)) ∧
    ((∀ a ∈ args, a.1 = true) → args.length ≤ 2 ^ 62 →
      ∃ w', (push_back_all w0 c args).out = .ret w' ()) := by
  have hrep0 := (ctor_default_rep h0).1
  have hne : args.length ≠ 0 := by omega
  constructor
  · intro w' hret
    obtain ⟨⟨blk, hrep⟩, hgrow⟩ := push_back_all_fresh hrep0 args w' hret
    refine ⟨Nat.clog 2 args.length, ?_, Nat.le_pow_clog (by norm_num) _, ?_, ?_⟩
    · simpa [cap_after, hne] using rep_capacity hrep
    · intro i hi
      exact (Nat.le_pow_iff_clog_le (by norm_num)).1 hi
    · simpa [growths_after, hne] using hgrow
  · intro hg hN
    exact push_back_all_returns hrep0 args hg (cap_after_le_of_le hN)

/-- C5 for three calls: the capacity is `4 = 2 ^ 2` and the growths were `1, 2, 4`. -/
theorem capacity_after_pushes_witness :
    ∃ w' j, (push_back_all ex_fresh 0 ex_args).out = .ret w' () ∧
      capacity w' 0 = some (2 ^ j) ∧ 3 ≤ 2 ^ j ∧ (∀ i, 3 ≤ 2 ^ i → j ≤ i) ∧
      (push_back_all ex_fresh 0 ex_args).growths = (List.range (j + 1)).map (2 ^ ·) :=
  have h := capacity_after_pushes (World.init Nat) ex_fresh 0 ex_args rfl (by decide)
  (h.2 (by decide) (by decide)).elim fun w' hw' =>
    (h.1 w' hw').elim fun j hj => ⟨w', j, hw', hj⟩

/-! ## Objects and blocks a call does not touch -/

theorem frame_refl {T : Type} (w : World T) (c : Nat) (blk : Option Nat) :
    Frame w w c blk :=
  ⟨le_refl _, fun _ _ => rfl, le_refl _, fun _ _ _ => rfl⟩

theorem rep_block_lt {T : Type} {w : World T} {c b k : Nat} {xs : List T}
    (h : Rep w c (some b) k xs) : b < w.heap.length := by
  obtain ⟨-, -, -, ys, hb, -, -⟩ := h
  exact (List.getElem?_eq_some.1 hb).1

theorem rep_frame {T : Type} {w w' : World T} {a c : Nat} {blk blkc : Option Nat}
    {k : Nat} {xs : List T} (h : Rep w a blk k xs) (hf : Frame w w' c blkc)
    (hne : a ≠ c) (hsep : ∀ x, blk = some x → blkc ≠ some x) : Rep w' a blk k xs := by
  obtain ⟨-, f2, -, f4⟩ := hf
  cases blk with
  | none =>
    obtain ⟨ho, hk, hx⟩ := h
    exact ⟨by rw [f2 a hne]; exact ho, hk, hx⟩
  | some b =>
    have hlt := rep_block_lt h
    obtain ⟨ho, h1, h2, ys, hb, h3, h4⟩ := h
    refine ⟨by rw [f2 a hne]; exact ho, h1, h2, ys, ?_, h3, h4⟩
    rw [f4 b (hsep b rfl) hlt]
    exact hb

theorem rep_data {T : Type} {w : World T} {c : Nat} {blk : Option Nat} {k : Nat}
    {xs : List T} (h : Rep w c blk k xs) :
    data w c = some (block_ptr blk) := by
  cases blk with
  | none => obtain ⟨ho, -, -⟩ := h; simp [data, ho, ArcVector.empty, block_ptr]
  | some b => obtain ⟨ho, -⟩ := h; simp [data, ho, block_ptr]

theorem separate_of_rep {T : Type} {w : World T} {a b : Nat} {blka blkb : Option Nat}
    {ka kb : Nat} {xs ys : List T} (ha : Rep w a blka ka xs) (hb : Rep w b blkb kb ys) :
    separate w a b = true ↔ ∀ x, blka = some x → blkb ≠ some x := by
  unfold separate
  rw [rep_data ha, rep_data hb]
  cases blka <;> cases blkb <;> simp [block_ptr]
  exact ne_comm

/-! ## `pop_back` and `clear` -/

theorem pop_back_rep {T : Type} {w : World T} {c : Nat} {blk : Option Nat} {k : Nat}
    {xs : List T} (h : Rep w c blk k xs) :
    ∃ w', pop_back w c = .ret w' () ∧ Rep w' c blk k xs.dropLast ∧ Frame w w' c blk ∧
      w'.heap = w.heap ∧ (xs = [] → w' = w) := by
  have hc := rep_obj_lt h
  generalize hr : pop_back w c = r
  cases blk with
  | none =>
    obtain ⟨ho, hk, hx⟩ := h
    subst hk hx
    simp [pop_back, ho, ArcVector.empty] at hr
    subst hr
    exact ⟨w, rfl, ⟨ho, rfl, rfl⟩, frame_refl _ _ _, rfl, fun _ => rfl⟩
  | some b =>
    obtain ⟨ho, h1, h2, ys, hb, h3, h4⟩ := h
    by_cases hx : xs = []
    · subst hx
      simp [pop_back, ho] at hr
      subst hr
      exact ⟨w, rfl, ⟨ho, h1, h2, ys, hb, h3, h4⟩, frame_refl _ _ _, rfl, fun _ => rfl⟩
    · have hpos : 0 < xs.length := List.length_pos.2 hx
      simp [pop_back, ho, hpos, Ptr.pred] at hr
      subst hr
      refine ⟨_, rfl, ?_, ?_, rfl, fun e => absurd e hx⟩
      · simp only [Rep, List.length_dropLast, List.getElem?_set_self hc, true_and, h2]
        refine ⟨by omega, ys, hb, h3, ?_⟩
        rw [List.dropLast_eq_take, ← h4, List.take_take]
        congr 1
        rw [List.length_take]
        omega
      · simp only [Frame, List.length_set, le_refl, true_and]
        exact ⟨fun d hd => List.getElem?_set_ne (Ne.symm hd), fun _ _ _ => trivial⟩

theorem clear_rep {T : Type} {w : World T} {c : Nat} {blk : Option Nat} {k : Nat}
    {xs : List T} (h : Rep w c blk k xs) :
    ∃ w', clear w c = .ret w' () ∧ Rep w' c blk k [] ∧ Frame w w' c blk ∧
      w'.heap = w.heap := by
  have hc := rep_obj_lt h
  generalize hr : clear w c = r
  cases blk with
  | none =>
    obtain ⟨ho, hk, hx⟩ := h
    subst hk hx
    simp [clear, ho, ArcVector.empty] at hr
    subst hr
    refine ⟨_, rfl, ?_, ?_, rfl⟩
    · simp [Rep, List.getElem?_set_self hc, ArcVector.empty]
    · simp only [Frame, List.length_set, le_refl, true_and]
      exact ⟨fun d hd => List.getElem?_set_ne (Ne.symm hd), fun _ _ _ => trivial⟩
  | some b =>
    obtain ⟨ho, h1, h2, ys, hb, h3, h4⟩ := h
    simp [clear, ho] at hr
    subst hr
    refine ⟨_, rfl, ?_, ?_, rfl⟩
    · simp only [Rep, List.length_nil, List.getElem?_set_self hc, true_and, h2]
      exact ⟨Nat.zero_le _, ys, hb, h3, by simp⟩
    · simp only [Frame, List.length_set, le_refl, true_and]
      exact ⟨fun d hd => List.getElem?_set_ne (Ne.symm hd), fun _ _ _ => trivial⟩

/-! ## Copying and moving -/

theorem ctor_copy_rep {T : Type} [Fresh T] {w : World T} {a : Nat}
    {blk : Option Nat} {k : Nat} {xs : List T} (h : Rep w a blk k xs) :
    ∃ w', ctor_copy true w a = .ret w' w.objs.length ∧
      Rep w' w.objs.length (some w.heap.length) k xs ∧
      Frame w w' w.objs.length none := by
  have hle := rep_length_le h
  generalize hr : ctor_copy true w a = r
  cases blk with
  | none =>
    obtain ⟨ho, hk, hx⟩ := h
    subst hk hx
    simp [ctor_copy, ho, new_array, ArcVector.empty, std_copy, read_range,
      write_range] at hr
    subst hr
    refine ⟨_, rfl, ?_, ?_⟩
    · simp [Rep, Ptr.add, MAX_ARRAY_LEN]
    · simp only [Frame, List.length_append, List.length_singleton]
      refine ⟨by omega, fun d hd => ?_, by omega, fun b _ hb => ?_⟩
      · rcases Nat.lt_or_ge d w.objs.length with hlt | hge
        · exact List.getElem?_append_left hlt
        · rw [List.getElem?_eq_none (by simp; omega), List.getElem?_eq_none hge]
      · exact List.getElem?_append_left hb
  | some b =>
    obtain ⟨ho, h1, h2, ys, hb, h3, h4⟩ := h
    have hbl : b < w.heap.length := (List.getElem?_eq_some.1 hb).1
    simp [ctor_copy, ho, new_array, h2, std_copy, read_range, write_range,
      List.getElem?_append_left hbl, hb, h3, h1, h4] at hr
    subst hr
    refine ⟨_, rfl, ?_, ?_⟩
    · simp only [Rep, Ptr.add, Nat.zero_add, h1, h2, true_and]
      refine ⟨by simp, xs ++ (fresh_block w.heap.length k).drop xs.length, by simp, ?_, by simp⟩
      simp only [List.length_append, List.length_drop, fresh_block_length]
      omega
    · simp only [Frame, List.length_append, List.length_singleton, List.length_set]
      refine ⟨by omega, fun d hd => ?_, by omega, fun b' _ hb' => ?_⟩
      · rcases Nat.lt_or_ge d w.objs.length with hlt | hge
        · exact List.getElem?_append_left hlt
        · rw [List.getElem?_eq_none (by simp; omega), List.getElem?_eq_none hge]
      · exact List.getElem?_append_left hb'

theorem release_length {T : Type} (h : Heap T) (blk : Option Nat) :
    (release h blk).length = h.length := by
  cases blk <;> simp [release]

theorem release_get {T : Type} (h : Heap T) (blk : Option Nat) (b : Nat)
    (hne : blk ≠ some b) : (release h blk)[b]? = h[b]? := by
  cases blk with
  | none => rfl
  | some x =>
    simp only [release]
    exact List.getElem?_set_ne (fun e => hne (by rw [e]))

theorem alloc_copy {T : Type} [Fresh T] {w : World T} {a : Nat} {blk : Option Nat}
    {k : Nat} {xs : List T} (h : Rep w a blk k xs) (m : Nat) (hm : xs.length ≤ m)
    (hmax : m ≤ MAX_ARRAY_LEN) :
    ∃ o, w.objs[a]? = some o ∧ o.size_ = xs.length ∧ o.capacity_ = k ∧
      new_array true w.heap m =
        some (w.heap ++ [some (fresh_block w.heap.length m)], .elem w.heap.length 0) ∧
      std_copy (w.heap ++ [some (fresh_block w.heap.length m)]) o.begin_ o.end_
          (.elem w.heap.length 0) =
        some (w.heap ++ [some (xs ++ (fresh_block w.heap.length m).drop xs.length)],
          Ptr.elem w.heap.length xs.length, xs.length) := by
  cases blk with
  | none =>
    obtain ⟨ho, hk, hx⟩ := h
    subst hk hx
    refine ⟨_, ho, rfl, rfl, by simp [new_array, hmax], ?_⟩
    simp [ArcVector.empty, std_copy, read_range, write_range, Ptr.add]
  | some b =>
    obtain ⟨ho, h1, h2, ys, hb, h3, h4⟩ := h
    have hbl : b < w.heap.length := (List.getElem?_eq_some.1 hb).1
    refine ⟨_, ho, rfl, rfl, by simp [new_array, hmax], ?_⟩
    simp [std_copy, read_range, write_range, List.getElem?_append_left hbl, hb, h3, h1,
      h4, hm, Ptr.add]

theorem delete_owned {T : Type} {w : World T} {t : Nat} {blkt : Option Nat} {kt : Nat}
    {ys : List T} (ht : Rep w t blkt kt ys) (ext : Heap T) :
    ∃ o, w.objs[t]? = some o ∧
      delete_array (w.heap ++ ext) o.begin_ = some (release (w.heap ++ ext) blkt) := by
  cases blkt with
  | none =>
    obtain ⟨ho, -, -⟩ := ht
    exact ⟨_, ho, by simp [ArcVector.empty, delete_array, release]⟩
  | some b =>
    obtain ⟨ho, h1, h2, zs, hb, h3, h4⟩ := ht
    have hbl : b < w.heap.length := (List.getElem?_eq_some.1 hb).1
    exact ⟨_, ho, by simp [delete_array, release, List.getElem?_append_left hbl, hb]⟩

theorem operator_assign_copy_rep {T : Type} [Fresh T] {w : World T} {t a : Nat}
    {blkt blka : Option Nat} {kt k : Nat} {ys xs : List T}
    (ht : Rep w t blkt kt ys) (h : Rep w a blka k xs) (hne : t ≠ a) :
    ∃ w', operator_assign_copy true w t a = .ret w' () ∧
      Rep w' t (some w.heap.length) k xs ∧ Frame w w' t blkt := by
  have hle := rep_length_le h
  have hc := rep_obj_lt ht
  obtain ⟨o, ho, hos, hoc, hnew, hcopy⟩ := alloc_copy h k hle.1 hle.2
  obtain ⟨ot, hot, hdel⟩ :=
    delete_owned ht [some (xs ++ (fresh_block w.heap.length k).drop xs.length)]
  generalize hr : operator_assign_copy true w t a = r
  simp only [operator_assign_copy, hot, ho, hne, ne_eq, not_false_eq_true, if_true, hoc, hnew,
    hcopy, hdel, hos] at hr
  subst hr
  refine ⟨_, rfl, ?_, ?_⟩
  · simp only [Rep, Ptr.add, Nat.zero_add, List.getElem?_set_self hc, hle.1, hle.2,
      true_and]
    refine ⟨xs ++ (fresh_block w.heap.length k).drop xs.length, ?_, ?_, by simp⟩
    · rw [release_get _ _ _ (fun e => ?_)]
      · simp
      · subst e
        exact absurd (rep_block_lt ht) (lt_irrefl _)
    · simp only [List.length_append, List.length_drop, fresh_block_length]
      omega
  · simp only [Frame, List.length_set, le_refl, release_length, List.length_append,
      List.length_singleton, true_and]
    refine ⟨fun d hd => List.getElem?_set_ne (Ne.symm hd), by omega, fun b hb hlt => ?_⟩
    rw [release_get _ _ _ hb, List.getElem?_append_left hlt]

theorem ctor_move_rep {T : Type} {w : World T} {a : Nat} {blk : Option Nat} {k : Nat}
    {xs : List T} (h : Rep w a blk k xs) :
    ∃ w', ctor_move w a = .ret w' w.objs.length ∧
      Rep w' w.objs.length blk k xs ∧ Rep w' a none 0 [] ∧ w'.heap = w.heap ∧
      (∀ d, d ≠ a → d < w.objs.length → w'.objs[d]? = w.objs[d]?) := by
  have hc := rep_obj_lt h
  obtain ⟨o, ho, -, -⟩ := rep_obj h
  generalize hr : ctor_move w a = r
  simp only [ctor_move, ho] at hr
  subst hr
  refine ⟨_, rfl, ?_, ?_, rfl, fun d hd hlt => ?_⟩
  · have hget : ((w.objs.set a ⟨.null, .null, .null, .null, 0, 0⟩) ++
        [⟨o.begin_, o.end_, o.allocationBegin_, o.allocationEnd_, o.size_,
          o.capacity_⟩])[w.objs.length]? = some o := by
      rw [List.getElem?_append_right (by simp)]
      simp
    cases blk with
    | none =>
      obtain ⟨ho', hk, hx⟩ := h
      rw [ho] at ho'
      exact ⟨hget.trans ho', hk, hx⟩
    | some b =>
      obtain ⟨ho', rest⟩ := h
      rw [ho] at ho'
      exact ⟨hget.trans ho', rest⟩
  · refine ⟨?_, rfl, rfl⟩
    show ((w.objs.set a _) ++ _)[a]? = _
    rw [List.getElem?_append_left (by simpa using hc), List.getElem?_set_self hc]
    rfl
  · show ((w.objs.set a _) ++ _)[d]? = _
    rw [List.getElem?_append_left (by simpa using hlt), List.getElem?_set_ne (Ne.symm hd)]

theorem operator_assign_move_rep {T : Type} {w : World T} {t a : Nat}
    {blkt blka : Option Nat} {kt k : Nat} {ys xs : List T}
    (ht : Rep w t blkt kt ys) (h : Rep w a blka k xs) (hne : t ≠ a)
    (hsep : ∀ x, blka = some x → blkt ≠ some x) :
    ∃ w', operator_assign_move w t a = .ret w' () ∧ Rep w' t blka k xs ∧ Rep w' a none 0 [] ∧
      w'.heap = release w.heap blkt ∧
      (∀ d, d ≠ t → d ≠ a → w'.objs[d]? = w.objs[d]?) := by
  have hc := rep_obj_lt ht
  have ha := rep_obj_lt h
  obtain ⟨o, ho, -, -⟩ := rep_obj h
  obtain ⟨ot, hot, hdel⟩ := delete_owned ht []
  rw [List.append_nil] at hdel
  generalize hr : operator_assign_move w t a = r
  simp only [operator_assign_move, hot, ho, hne, ne_eq, not_false_eq_true, if_true, hdel] at hr
  subst hr
  have hget : ((w.objs.set t ⟨o.begin_, o.end_, o.allocationBegin_, o.allocationEnd_,
      o.size_, o.capacity_⟩).set a ⟨.null, .null, .null, .null, 0, 0⟩)[t]? = some o := by
    rw [List.getElem?_set_ne (Ne.symm hne), List.getElem?_set_self hc]
  refine ⟨_, rfl, ?_, ?_, rfl, fun d hd1 hd2 => ?_⟩
  · cases blka with
    | none =>
      obtain ⟨ho', hk, hx⟩ := h
      rw [ho] at ho'
      exact ⟨hget.trans ho', hk, hx⟩
    | some b =>
      obtain ⟨ho', h1, h2, zs, hb, h3, h4⟩ := h
      rw [ho] at ho'
      refine ⟨hget.trans ho', h1, h2, zs, ?_, h3, h4⟩
      show (release w.heap blkt)[b]? = _
      rw [release_get _ _ _ (fun e => hsep b rfl e)]
      exact hb
  · refine ⟨?_, rfl, rfl⟩
    show ((w.objs.set t _).set a _)[a]? = _
    rw [List.getElem?_set_self (by simpa using ha)]
    rfl
  · show ((w.objs.set t _).set a _)[d]? = _
    rw [List.getElem?_set_ne (Ne.symm hd2), List.getElem?_set_ne (Ne.symm hd1)]

theorem rep_agree {T : Type} {w w' : World T} {a b : Nat} {blk blk' : Option Nat}
    {k : Nat} {xs : List T} (h : Rep w a blk k xs) (h' : Rep w' b blk' k xs) :
    agree w a w' b :=
  ⟨by rw [rep_size h, rep_size h'], by rw [rep_capacity h, rep_capacity h'],
    by rw [rep_live h, rep_live h'],
    fun i => by rw [rep_elem_at h, rep_elem_at h']⟩

/-! ## C6: a copy equals its source -/

/-- C6. For every well-formed container `a`, when the allocator grants the block: the
copy constructor returns a new object `b`, and copy assignment to any other well-formed
object `t` (which does not share `a`'s block) returns, the target then having the size of
`a`, the capacity of `a` (its capacity, not its size) and `b[i] == a[i]` at every index,
while `a` itself shows the same size, capacity and elements as before. -/
theorem copy_equals_source {T : Type} [Fresh T] (w : World T) (a : Nat)
    (hwf : wf w a = true) :
    (∃ w' b, ctor_copy true w a = .ret w' b ∧ b ≠ a ∧ wf w' b = true ∧
      agree w a w' b ∧ agree w a w' a) ∧
    (∀ t, t ≠ a → wf w t = true → separate w t a = true →
      ∃ w', operator_assign_copy true w t a = .ret w' () ∧ wf w' t = true ∧
        agree w a w' t ∧ agree w a w' a) := by
  obtain ⟨blk, k, xs, h⟩ := rep_of_wf hwf
  have ha := rep_obj_lt h
  constructor
  · obtain ⟨w', hw', hrep, hfr⟩ := ctor_copy_rep h
    have hne : a ≠ w.objs.length := Nat.ne_of_lt ha
    have hrepa := rep_frame h hfr hne (fun x _ => by simp)
    exact ⟨w', _, hw', Ne.symm hne, wf_of_rep hrep, rep_agree h hrep, rep_agree h hrepa⟩
  · intro t hne hwt hsep
    obtain ⟨blkt, kt, ys, ht⟩ := rep_of_wf hwt
    obtain ⟨w', hw', hrep, hfr⟩ := operator_assign_copy_rep ht h hne
    have hsep' := (separate_of_rep ht h).1 hsep
    have hrepa := rep_frame h hfr (Ne.symm hne) (fun x hx hx' => hsep' x hx' hx)
    exact ⟨w', hw', wf_of_rep hrep, rep_agree h hrep, rep_agree h hrepa⟩

/-- C6 at `[1, 2, 3]` with capacity 4, copy-assigned to a container holding `[7]`. -/
theorem copy_equals_source_witness :
    (∃ w' b, ctor_copy true ex_two 0 = .ret w' b ∧ b ≠ 0 ∧ wf w' b = true ∧
      agree ex_two 0 w' b ∧ agree ex_two 0 w' 0) ∧
    (∃ w', operator_assign_copy true ex_two 1 0 = .ret w' () ∧ wf w' 1 = true ∧
      agree ex_two 0 w' 1 ∧ agree ex_two 0 w' 0) :=
  have h := copy_equals_source ex_two 0 (by decide)
  ⟨h.1, h.2 1 (by decide) (by decide) (by decide)⟩

/-! ## C7: a copy is independent of its source -/

theorem apply_op_rep {T : Type} [Fresh T] {w : World T} {c : Nat} {blk : Option Nat}
    {k : Nat} {xs : List T} (h : Rep w c blk k xs) (op : Op T) :
    ∃ w' blk' k' xs', (apply_op w c op).world? = some w' ∧ Rep w' c blk' k' xs' ∧
      (blk' = blk ∨ blk' = some w.heap.length) ∧ Frame w w' c blk := by
  cases op with
  | push_back g v =>
    by_cases hroom : xs.length < k ∨ (g = true ∧ 2 * k ≤ MAX_ARRAY_LEN)
    · obtain ⟨w', b', hw', hrep, hb', hfr⟩ := push_back_rep h g v hroom
      refine ⟨w', some b', _, _, by simp [apply_op, hw', Outcome.world?], hrep, ?_, hfr⟩
      rcases hb' with ⟨hb', -⟩ | ⟨hb', -⟩
      · exact Or.inl hb'
      · exact Or.inr (by rw [hb'])
    · have hthrow := push_back_throw h g v hroom
      exact ⟨w, blk, k, xs, by simp [apply_op, hthrow, Outcome.world?], h, Or.inl rfl,
        frame_refl _ _ _⟩
  | pop_back =>
    obtain ⟨w', hw', hrep, hfr, -, -⟩ := pop_back_rep h
    exact ⟨w', blk, _, _, by simp [apply_op, hw', Outcome.world?], hrep, Or.inl rfl, hfr⟩
  | clear =>
    obtain ⟨w', hw', hrep, hfr, -⟩ := clear_rep h
    exact ⟨w', blk, _, _, by simp [apply_op, hw', Outcome.world?], hrep, Or.inl rfl, hfr⟩

theorem run_ops_apart {T : Type} [Fresh T] {a b : Nat} {blka : Option Nat} {k : Nat}
    {xs : List T} (hne : a ≠ b) (ops : List (Op T)) :
    ∀ (w : World T) (blkb : Option Nat) (kb : Nat) (ys : List T),
      Rep w a blka k xs → Rep w b blkb kb ys → (∀ x, blka = some x → blkb ≠ some x) →
      ∃ w2 blkb' kb' ys', run_ops w b ops = some w2 ∧ Rep w2 a blka k xs ∧
        Rep w2 b blkb' kb' ys' ∧ (∀ x, blka = some x → blkb' ≠ some x) := by
  induction ops with
  | nil =>
    intro w blkb kb ys ha hb hsep
    exact ⟨w, blkb, kb, ys, rfl, ha, hb, hsep⟩
  | cons op rest ih =>
    intro w blkb kb ys ha hb hsep
    obtain ⟨w1, blk1, k1, ys1, hw1, hrep1, hblk1, hfr⟩ := apply_op_rep hb op
    have ha1 := rep_frame ha hfr hne hsep
    have hsep1 : ∀ x, blka = some x → blk1 ≠ some x := by
      intro x hx
      rcases hblk1 with e | e
      · rw [e]; exact hsep x hx
      · rw [e]
        subst hx
        have := rep_block_lt ha
        intro e'
        injection e' with e'
        omega
    obtain ⟨w2, blk2, k2, ys2, hw2, ha2, hb2, hsep2⟩ := ih w1 blk1 k1 ys1 ha1 hrep1 hsep1
    exact ⟨w2, blk2, k2, ys2, by simp only [run_ops, hw1, hw2], ha2, hb2, hsep2⟩

/-- C7. Let `a` be a well-formed container and `b` a copy of it, made by the copy
constructor or by copy assignment to another well-formed object.  Then every sequence of
`push_back`, `pop_back` and `clear` calls on `b`, the arguments of `push_back` being
temporaries or variables, runs without undefined behaviour, and after it `a` has the
size, the capacity and the elements it had before the copy was made, and `a` and `b` do
not point into the same block. -/
theorem copy_is_independent {T : Type} [Fresh T] (w : World T) (a : Nat)
    (ops : List (Op T)) (hwf : wf w a = true) :
    (∃ w1 b, ctor_copy true w a = .ret w1 b ∧
      ∃ w2, run_ops w1 b ops = some w2 ∧ agree w a w2 a ∧ separate w2 a b = true) ∧
    (∀ t, t ≠ a → wf w t = true → separate w t a = true →
      ∃ w1, operator_assign_copy true w t a = .ret w1 () ∧
        ∃ w2, run_ops w1 t ops = some w2 ∧ agree w a w2 a ∧ separate w2 a t = true) := by
  obtain ⟨blk, k, xs, h⟩ := rep_of_wf hwf
  have ha := rep_obj_lt h
  have hfresh : ∀ x, blk = some x → some w.heap.length ≠ some x := by
    intro x hx e
    subst hx
    have := rep_block_lt h
    injection e with e
    omega
  constructor
  · obtain ⟨w1, hw1, hrep, hfr⟩ := ctor_copy_rep h
    have hne : a ≠ w.objs.length := Nat.ne_of_lt ha
    have hrepa := rep_frame h hfr hne (fun x _ => by simp)
    obtain ⟨w2, blkb, kb, ys, hw2, ha2, hb2, hsep2⟩ :=
      run_ops_apart hne ops w1 _ _ _ hrepa hrep hfresh
    exact ⟨w1, _, hw1, w2, hw2, rep_agree h ha2, (separate_of_rep ha2 hb2).2 hsep2⟩
  · intro t hne hwt hsep
    obtain ⟨blkt, kt, ys, ht⟩ := rep_of_wf hwt
    obtain ⟨w1, hw1, hrep, hfr⟩ := operator_assign_copy_rep ht h hne
    have hsep' := (separate_of_rep ht h).1 hsep
    have hrepa := rep_frame h hfr (Ne.symm hne) (fun x hx hx' => hsep' x hx' hx)
    obtain ⟨w2, blkb, kb, ys', hw2, ha2, hb2, hsep2⟩ :=
      run_ops_apart (Ne.symm hne) ops w1 _ _ _ hrepa hrep hfresh
    exact ⟨w1, hw1, w2, hw2, rep_agree h ha2, (separate_of_rep ha2 hb2).2 hsep2⟩

/-- C7 at a copy of `[1, 2, 3]`, on which pops, pushes and a clear are then run. -/
theorem copy_is_independent_witness :
    (∃ w1 b, ctor_copy true ex_two 0 = .ret w1 b ∧
      ∃ w2, run_ops w1 b ex_ops = some w2 ∧ agree ex_two 0 w2 0 ∧
        separate w2 0 b = true) ∧
    (∃ w1, operator_assign_copy true ex_two 1 0 = .ret w1 () ∧
      ∃ w2, run_ops w1 1 ex_ops = some w2 ∧ agree ex_two 0 w2 0 ∧
        separate w2 0 1 = true) :=
  have h := copy_is_independent ex_two 0 ex_ops (by decide)
  ⟨h.1, h.2 1 (by decide) (by decide) (by decide)⟩

/-! ## C8: a move transfers the contents and empties the source -/

/-- C8. For every well-formed container `a`: the move constructor returns a new object
`b`, and move assignment to any other well-formed object `t` (which does not share `a`'s
block) returns; afterwards `a` is in the empty state (all four pointers null, size 0,
capacity 0) and the target has the size, the capacity and the elements, in order, which
`a` had before, in the block `a` used to point to. -/
theorem move_transfers {T : Type} (w : World T) (a : Nat) (hwf : wf w a = true) :
    (∃ w' b, ctor_move w a = .ret w' b ∧ b ≠ a ∧
      w'.objs[a]? = some ArcVector.empty ∧ size w' a = some 0 ∧ capacity w' a = some 0 ∧
      agree w a w' b ∧ data w' b = data w a) ∧
    (∀ t, t ≠ a → wf w t = true → separate w t a = true →
      ∃ w', operator_assign_move w t a = .ret w' () ∧
        w'.objs[a]? = some ArcVector.empty ∧ size w' a = some 0 ∧
        capacity w' a = some 0 ∧ agree w a w' t ∧ data w' t = data w a) := by
  obtain ⟨blk, k, xs, h⟩ := rep_of_wf hwf
  have ha := rep_obj_lt h
  constructor
  · obtain ⟨w', hw', hrepb, hrepa, -, -⟩ := ctor_move_rep h
    refine ⟨w', _, hw', Ne.symm (Nat.ne_of_lt ha), hrepa.1, by simpa using rep_size hrepa,
      rep_capacity hrepa, rep_agree h hrepb, ?_⟩
    rw [rep_data hrepb, rep_data h]
  · intro t hne hwt hsep
    obtain ⟨blkt, kt, ys, ht⟩ := rep_of_wf hwt
    have hsep' := (separate_of_rep ht h).1 hsep
    obtain ⟨w', hw', hrept, hrepa, -, -⟩ :=
      operator_assign_move_rep ht h hne (fun x hx hx' => hsep' x hx' hx)
    refine ⟨w', hw', hrepa.1, by simpa using rep_size hrepa, rep_capacity hrepa,
      rep_agree h hrept, ?_⟩
    rw [rep_data hrept, rep_data h]

/-- C8 at `[1, 2, 3]`, moved into a new object and into a container holding `[7]`. -/
theorem move_transfers_witness :
    (∃ w' b, ctor_move ex_two 0 = .ret w' b ∧ b ≠ 0 ∧
      w'.objs[0]? = some ArcVector.empty ∧ size w' 0 = some 0 ∧ capacity w' 0 = some 0 ∧
      agree ex_two 0 w' b ∧ data w' b = data ex_two 0) ∧
    (∃ w', operator_assign_move ex_two 1 0 = .ret w' () ∧
      w'.objs[0]? = some ArcVector.empty ∧ size w' 0 = some 0 ∧
      capacity w' 0 = some 0 ∧ agree ex_two 0 w' 1 ∧ data w' 1 = data ex_two 0) :=
  have h := move_transfers ex_two 0 (by decide)
  ⟨h.1, h.2 1 (by decide) (by decide) (by decide)⟩

/-! ## C9: `pop_back` -/

/-- C9. For every well-formed container `c` with live elements `xs`, `pop_back` returns
without an exception and leaves the capacity as it was.  If `c` is not empty the size
drops by exactly one, the elements at the indices below the new size are unchanged, and
the former last index is now out of range.  If `c` is empty nothing changes at all. -/
theorem pop_back_removes_last {T : Type} (w : World T) (c : Nat) (xs : List T)
    (hwf : wf w c = true) (hlive : live w c = some xs) :
    ∃ w', pop_back w c = .ret w' () ∧ capacity w' c = capacity w c ∧
      (xs ≠ [] →
        size w' c = some (xs.length - 1) ∧
        (∀ i, i < xs.length - 1 → elem_at w' c i = xs[i]?) ∧
        live w' c = some xs.dropLast ∧
        operator_index w' c (xs.length - 1) = .throw w' .out_of_range) ∧
      (xs = [] → w' = w ∧ size w' c = some 0) := by
  obtain ⟨blk, k, xs', h⟩ := rep_of_wf hwf
  have hl := rep_live h
  rw [hlive] at hl
  injection hl with hl
  subst hl
  obtain ⟨w', hw', hrep, -, -, hnil⟩ := pop_back_rep h
  refine ⟨w', hw', by rw [rep_capacity hrep, rep_capacity h], ?_, ?_⟩
  · intro _
    refine ⟨by simpa using rep_size hrep, ?_, rep_live hrep, ?_⟩
    · intro i hi
      rw [rep_elem_at hrep, List.dropLast_eq_take, List.getElem?_take_of_lt hi]
    · exact (rep_operator_index hrep _).1 (by simp)
  · intro hx
    refine ⟨hnil hx, ?_⟩
    rw [hnil hx, rep_size h, hx]
    rfl

/-- C9 at `[1, 2, 3]`, where the size becomes 2 and index 2 is out of range, and at an
empty container, where nothing changes. -/
theorem pop_back_removes_last_witness :
    (∃ w', pop_back ex_spare 0 = .ret w' () ∧ capacity w' 0 = capacity ex_spare 0 ∧
      size w' 0 = some 2 ∧
      (∀ i, i < 2 → elem_at w' 0 i = [1, 2, 3][i]?) ∧
      live w' 0 = some [1, 2] ∧
      operator_index w' 0 2 = .throw w' .out_of_range) ∧
    (∃ w', pop_back ex_fresh 0 = .ret w' () ∧ capacity w' 0 = capacity ex_fresh 0 ∧
      w' = ex_fresh ∧ size w' 0 = some 0) :=
  ⟨(pop_back_removes_last ex_spare 0 [1, 2, 3] (by decide) (by decide)).elim
      fun w' h => ⟨w', h.1, h.2.1, h.2.2.1 (by decide)⟩,
    (pop_back_removes_last ex_fresh 0 [] (by decide) (by decide)).elim
      fun w' h => ⟨w', h.1, h.2.1, h.2.2.2 rfl⟩⟩

/-! ## C10: `clear` keeps the block -/

/-- C10. For every well-formed container `c` of capacity `k`, `clear` returns with size 0,
capacity `k`, the same `begin_` and an untouched free store.  When `k > 0`, a `push_back`
right after it returns whatever the allocator would answer, since it asks for nothing:
the capacity is still `k`, the block is the same, no block was allocated, and the size
is 1. -/
theorem clear_keeps_capacity {T : Type} [Fresh T] (w : World T) (c k : Nat) (v : T)
    (granted : Bool) (hwf : wf w c = true) (hcap : capacity w c = some k) :
    ∃ w1, clear w c = .ret w1 () ∧ size w1 c = some 0 ∧ capacity w1 c = some k ∧
      data w1 c = data w c ∧ w1.heap = w.heap ∧
      (0 < k →
        ∃ w2, push_back granted w1 c (.val v) = .ret w2 () ∧
          push_back_move granted w1 c (.val v) = .ret w2 () ∧
          capacity w2 c = some k ∧ size w2 c = some 1 ∧ data w2 c = data w c ∧
          w2.heap.length = w.heap.length) := by
  obtain ⟨blk, k', xs, h⟩ := rep_of_wf hwf
  have hk := rep_capacity h
  rw [hcap] at hk
  injection hk with hk
  subst hk
  obtain ⟨w1, hw1, hrep1, -, hheap⟩ := clear_rep h
  have hdata : data w1 c = data w c := by rw [rep_data hrep1, rep_data h]
  refine ⟨w1, hw1, by simpa using rep_size hrep1, rep_capacity hrep1, hdata, hheap, ?_⟩
  intro hpos
  have hlt : ([] : List T).length < k := by simpa using hpos
  obtain ⟨w2, b', hw2, hrep2, -, -⟩ := push_back_rep hrep1 granted v (Or.inl hlt)
  obtain ⟨t, ho, hts, htc⟩ := rep_obj hrep1
  have hst : store_at_end w1 c (.val v) = .ret w2 () := by
    rw [← push_back_eq_store ho (by simp at hts; omega) granted v]
    exact hw2
  have hkeep := store_at_end_keeps_block hst
  refine ⟨w2, hw2, hw2, ?_, by simpa using rep_size hrep2, hkeep.2.trans hdata, ?_⟩
  · simpa [grown, hpos] using rep_capacity hrep2
  · rw [hkeep.1, hheap]

/-- C10 at `[1, 2, 3]` with capacity 4, the allocator refusing everything. -/
theorem clear_keeps_capacity_witness :
    ∃ w1, clear ex_spare 0 = .ret w1 () ∧ size w1 0 = some 0 ∧ capacity w1 0 = some 4 ∧
      data w1 0 = data ex_spare 0 ∧ w1.heap = ex_spare.heap ∧
      ∃ w2, push_back false w1 0 (.val 6) = .ret w2 () ∧
        push_back_move false w1 0 (.val 6) = .ret w2 () ∧
        capacity w2 0 = some 4 ∧ size w2 0 = some 1 ∧ data w2 0 = data ex_spare 0 ∧
        w2.heap.length = ex_spare.heap.length :=
  (clear_keeps_capacity ex_spare 0 4 6 false (by decide) (by decide)).elim
    fun w1 h => ⟨w1, h.1, h.2.1, h.2.2.1, h.2.2.2.1, h.2.2.2.2.1, h.2.2.2.2.2 (by decide)⟩

/-! ## C13: sized construction -/

theorem ctor_size_rep {T : Type} [Fresh T] (w : World T) (n : Nat)
    (hn : n ≤ MAX_ARRAY_LEN) :
    ∃ w', ctor_size true w n = .ret w' w.objs.length ∧
      Rep w' w.objs.length (some w.heap.length) n (fresh_block w.heap.length n) ∧
      Frame w w' w.objs.length none := by
  generalize hr : ctor_size true w n = r
  simp [ctor_size, new_array, hn] at hr
  subst hr
  refine ⟨_, rfl, ?_, ?_⟩
  · simp [Rep, Ptr.add, hn]
  · simp only [Frame, List.length_append, List.length_singleton]
    refine ⟨by omega, fun d hd => ?_, by omega, fun b _ hb => ?_⟩
    · rcases Nat.lt_or_ge d w.objs.length with hlt | hge
      · exact List.getElem?_append_left hlt
      · rw [List.getElem?_eq_none (by simp; omega), List.getElem?_eq_none hge]
    · exact List.getElem?_append_left hb

theorem ctor_size_throw {T : Type} [Fresh T] (w : World T) (n : Nat) (g : Bool)
    (hno : ¬ (g = true ∧ n ≤ MAX_ARRAY_LEN)) :
    ctor_size g w n = .throw w .bad_alloc := by
  simp [ctor_size, new_array, hno]

/-- C13, amended.  For every `N`, when the allocator grants the block (it can for
`N ≤ MAX_ARRAY_LEN`), the constructor `ArcVector(N)` returns a well-formed object with
`size() == capacity() == N`, on which `operator[](i)` (mutable and const) returns, for
every `i < N`, a reference to element `i` of the block `new T[N]` handed out; the element
holds whatever `new T[N]` left there (`Fresh.fresh`), which the constructor never
overwrites. When the block is refused the constructor throws `std::bad_alloc` and no
object is made. -/
theorem sized_construction {T : Type} [Fresh T] (w : World T) (n : Nat)
    (granted : Bool) :
    ((granted = true ∧ n ≤ MAX_ARRAY_LEN) →
      ∃ w' c, ctor_size granted w n = .ret w' c ∧ wf w' c = true ∧
        size w' c = some n ∧ capacity w' c = some n ∧
        live w' c = some (fresh_block w.heap.length n) ∧
        (∀ i, i < n → ∃ p, operator_index w' c i = .ret w' p ∧
          operator_index_const w' c i = .ret w' p ∧
          load w'.heap p = some (Fresh.fresh w.heap.length i))) ∧
    (¬ (granted = true ∧ n ≤ MAX_ARRAY_LEN) →
      ctor_size granted w n = .throw w .bad_alloc) := by
  constructor
  · rintro ⟨hg, hn⟩
    subst hg
    obtain ⟨w', hw', hrep, -⟩ := ctor_size_rep w n hn
    refine ⟨w', _, hw', wf_of_rep hrep, by simpa using rep_size hrep, rep_capacity hrep,
      rep_live hrep, fun i hi => ?_⟩
    obtain ⟨p, hp, hl⟩ := (rep_operator_index hrep i).2 (by simpa using hi)
    refine ⟨p, hp, hp, ?_⟩
    rw [hl, fresh_block_get _ _ _ hi]
  · exact ctor_size_throw w n granted

/-- C13 (amended) for `ArcVector<int>(3)` in a program which has one container
already. -/
theorem sized_construction_witness :
    ∃ w' c, ctor_size true ex_fresh 3 = .ret w' c ∧ wf w' c = true ∧
      size w' c = some 3 ∧ capacity w' c = some 3 ∧
      live w' c = some (fresh_block ex_fresh.heap.length 3) ∧
      (∀ i, i < 3 → ∃ p, operator_index w' c i = .ret w' p ∧
        operator_index_const w' c i = .ret w' p ∧
        load w'.heap p = some (Fresh.fresh ex_fresh.heap.length i)) :=
  (sized_construction ex_fresh 3 true).1 ⟨rfl, by decide⟩

/-- C13, counterexample.  `ArcVector<int> c(2);` in an empty program, with
`new int[2]` handing out a block whose two elements differ: the constructor returns with
size and capacity 2 and `operator[]` succeeds at both indices, but `c[0]` and `c[1]`
hold different values, so there is no one value of `T` that every element holds. -/
theorem sized_construction_counterexample :
    ctor_size true (World.init Nat) 2 = .ret ex_sized 0 ∧
      size ex_sized 0 = some 2 ∧ capacity ex_sized 0 = some 2 ∧
      operator_index ex_sized 0 0 = .ret ex_sized (.elem 0 0) ∧
      operator_index ex_sized 0 1 = .ret ex_sized (.elem 0 1) ∧
      elem_at ex_sized 0 0 = some 100 ∧ elem_at ex_sized 0 1 = some 101 ∧
      ¬ ∃ d, ∀ i, i < 2 → elem_at ex_sized 0 i = some d := by
  refine ⟨rfl, rfl, rfl, rfl, rfl, rfl, rfl, ?_⟩
  rintro ⟨d, hd⟩
  have h0 : elem_at ex_sized 0 0 = some d := hd 0 (by decide)
  have h1 : elem_at ex_sized 0 1 = some d := hd 1 (by decide)
  have e0 : elem_at ex_sized 0 0 = some 100 := rfl
  have e1 : elem_at ex_sized 0 1 = some 101 := rfl
  have h : (some 100 : Option Nat) = some 101 := e0.symm.trans (h0.trans (h1.symm.trans e1))
  exact absurd h (by decide)

/-! ## C14: self-assignment -/

/-- C14. For every well-formed container `c`, copy-assigning `c` to itself and
move-assigning `c` to itself both return and leave the whole state as it was: the size,
the capacity, the block and the elements of `c` are unchanged, nothing is allocated (the
allocator is not even asked) and nothing is released. -/
theorem self_assignment_noop {T : Type} [Fresh T] (w : World T) (c : Nat)
    (granted : Bool) (hwf : wf w c = true) :
    operator_assign_copy granted w c c = .ret w () ∧
      operator_assign_move w c c = .ret w () := by
  obtain ⟨blk, k, xs, h⟩ := rep_of_wf hwf
  obtain ⟨t, ho, -, -⟩ := rep_obj h
  constructor
  · simp [operator_assign_copy, ho]
  · simp [operator_assign_move, ho]

/-- C14 at `[1, 2, 3]`, with an allocator that would refuse. -/
theorem self_assignment_noop_witness :
    operator_assign_copy false ex_spare 0 0 = .ret ex_spare () ∧
      operator_assign_move ex_spare 0 0 = .ret ex_spare () :=
  self_assignment_noop ex_spare 0 false (by decide)

/-! ## C15: copy assignment when the allocation fails -/

/-- C15. For every well-formed target `t` and source `s ≠ t`: when the allocation which
copy assignment performs is refused, `t = s` throws `std::bad_alloc` and the state at
the throw is the state before the call, so the size, the capacity, the block (not
released) and the elements of `t` are what they were.  Copy assignment throws in no other
case and with no other exception. -/
theorem copy_assign_alloc_failure {T : Type} [Fresh T] (w : World T) (t s : Nat)
    (granted : Bool) (hwt : wf w t = true) (hws : wf w s = true) (hne : t ≠ s) :
    operator_assign_copy false w t s = .throw w .bad_alloc ∧
      (∀ w' e, operator_assign_copy granted w t s = .throw w' e →
        granted = false ∧ e = .bad_alloc ∧ w' = w) := by
  obtain ⟨blkt, kt, ys, ht⟩ := rep_of_wf hwt
  obtain ⟨blks, ks, xs, hs⟩ := rep_of_wf hws
  obtain ⟨ot, hot, -, -⟩ := rep_obj ht
  obtain ⟨os, hos, -, -⟩ := rep_obj hs
  have hfalse : operator_assign_copy false w t s = .throw w .bad_alloc := by
    simp [operator_assign_copy, hot, hos, hne, new_array]
  refine ⟨hfalse, fun w' e he => ?_⟩
  cases granted with
  | false =>
    rw [hfalse] at he
    injection he with h1 h2
    exact ⟨rfl, h2.symm, h1.symm⟩
  | true =>
    obtain ⟨w1, hw1, -, -⟩ := operator_assign_copy_rep ht hs hne
    rw [hw1] at he
    cases he

/-- C15 at a target holding `[7]` and a source holding `[1, 2, 3]`. -/
theorem copy_assign_alloc_failure_witness :
    operator_assign_copy false ex_two 1 0 = .throw ex_two .bad_alloc :=
  (copy_assign_alloc_failure ex_two 1 0 false (by decide) (by decide) (by decide)).1

/-! ## C16: the end-to-end scenario -/

/-- C16. In an empty program: `c` default-constructed and `push_back(1)`, `push_back(2)`,
`push_back(3)` give `c` size 3, capacity 4 and elements `[1, 2, 3]`; `d` copy-constructed
from `c` and then `d.pop_back()` give `d` size 2 and elements `[1, 2]` while `c` still
has size 3 and elements `[1, 2, 3]`; `e` move-constructed from `c` gives `e` size 3 and
elements `[1, 2, 3]`, and `c` size 0 and capacity 0. -/
theorem end_to_end_scenario :
    ∃ w0 c w1 w2 w3 w4 d w5 w6 e,
      ctor_default (World.init Nat) = .ret w0 c ∧
      push_back_move true w0 c (.val 1) = .ret w1 () ∧
      push_back_move true w1 c (.val 2) = .ret w2 () ∧
      push_back_move true w2 c (.val 3) = .ret w3 () ∧
      size w3 c = some 3 ∧ capacity w3 c = some 4 ∧ live w3 c = some [1, 2, 3] ∧
      ctor_copy true w3 c = .ret w4 d ∧
      pop_back w4 d = .ret w5 () ∧
      size w5 d = some 2 ∧ live w5 d = some [1, 2] ∧
      size w5 c = some 3 ∧ live w5 c = some [1, 2, 3] ∧
      ctor_move w5 c = .ret w6 e ∧
      size w6 e = some 3 ∧ live w6 e = some [1, 2, 3] ∧
      size w6 c = some 0 ∧ capacity w6 c = some 0 :=
  ⟨_, _, _, _, _, _, _, _, _, _, rfl, rfl, rfl, rfl, by decide, by decide, by decide, rfl,
    rfl, by decide, by decide, by decide, by decide, rfl, by decide, by decide, by decide,
    by decide⟩

/-! ## C19: `push_back` writes inside the block -/

theorem rep_block {T : Type} {w : World T} {c b k : Nat} {xs : List T}
    (h : Rep w c (some b) k xs) :
    data w c = some (.elem b 0) ∧
      ∃ ys, w.heap[b]? = some (some ys) ∧ ys.length = k ∧ ys.take xs.length = xs := by
  obtain ⟨ho, -, -, ys, hb, h3, h4⟩ := h
  exact ⟨by simp [data, ho], ys, hb, h3, h4⟩

/-- C19. Let the members `t` of a container satisfy `size_ ≤ capacity_`, with
`2 * capacity_` not overflowing `size_t`.  Then the old size, which is the index of the
slot `push_back` writes when `end_ == begin_ + size_`, is strictly below the capacity in
force at the write.  On a well-formed container (where `end_ == begin_ + size_` and the
block has `capacity_` elements) the call, its argument being a temporary or a variable,
therefore never has undefined behaviour (a store outside the block), and when it returns
the value sits at index `size_` of the container's block, whose length is that
capacity. -/
theorem push_back_write_in_bounds {T : Type} [Fresh T] (w : World T) (c : Nat)
    (t : ArcVector) (granted : Bool) (v : T)
    (ho : w.objs[c]? = some t) (hle : t.size_ ≤ t.capacity_)
    (hno : 2 * t.capacity_ < SIZE_MOD) :
    t.size_ < capacity_at_write t ∧
    (wf w c = true →
      push_back granted w c (.val v) ≠ .undefined ∧
      push_back_move granted w c (.val v) ≠ .undefined ∧
      ∀ w', push_back granted w c (.val v) = .ret w' () →
        ∃ b ys, data w' c = some (.elem b 0) ∧ w'.heap[b]? = some (some ys) ∧
          ys.length = capacity_at_write t ∧ ys[t.size_]? = some v) := by
  have hmod : (t.capacity_ * 2) % SIZE_MOD = 2 * t.capacity_ := by
    rw [Nat.mod_eq_of_lt (by omega), Nat.mul_comm]
  have hcw : capacity_at_write t = grown t.size_ t.capacity_ := by
    unfold capacity_at_write grown
    by_cases heq : t.size_ = t.capacity_
    · have hnlt : ¬ t.size_ < t.capacity_ := by omega
      simp only [heq, if_true, hmod, lt_irrefl, if_false]
    · have hlt : t.size_ < t.capacity_ := by omega
      simp only [heq, if_false, hlt, if_true]
  have hlt : t.size_ < grown t.size_ t.capacity_ := by
    unfold grown
    split
    · assumption
    · split <;> omega
  refine ⟨by rw [hcw]; exact hlt, fun hwf => ?_⟩
  obtain ⟨blk, k, xs, h⟩ := rep_of_wf hwf
  obtain ⟨t', ho', hts, htc⟩ := rep_obj h
  rw [ho] at ho'
  injection ho' with ho'
  subst ho'
  have hmain : push_back granted w c (.val v) ≠ .undefined ∧
      ∀ w', push_back granted w c (.val v) = .ret w' () →
        ∃ b ys, data w' c = some (.elem b 0) ∧ w'.heap[b]? = some (some ys) ∧
          ys.length = capacity_at_write t ∧ ys[t.size_]? = some v := by
    by_cases hroom : xs.length < k ∨ (granted = true ∧ 2 * k ≤ MAX_ARRAY_LEN)
    · obtain ⟨w1, b', hw1, hrep, -, -⟩ := push_back_rep h granted v hroom
      refine ⟨(by rw [hw1]; exact fun e => by cases e), fun w' hw' => ?_⟩
      rw [hw1] at hw'
      injection hw' with hw'
      subst hw'
      obtain ⟨hd, ys, hb, hlen, htake⟩ := rep_block hrep
      refine ⟨b', ys, hd, hb, by rw [hlen, hcw, hts, htc], ?_⟩
      have hget : (ys.take (xs ++ [v]).length)[xs.length]? = some v := by
        rw [htake]; simp
      rw [List.getElem?_take_of_lt (by simp)] at hget
      rw [hts]
      exact hget
    · rw [push_back_throw h granted v hroom]
      exact ⟨(fun e => by cases e), (fun w' hw' => by cases hw')⟩
  exact ⟨hmain.1, hmain.1, hmain.2⟩

/-- C19 at the full container `[1, 2]`: slot 2 is written in a block of 4 elements. -/
theorem push_back_write_in_bounds_witness :
    (2 < capacity_at_write ⟨.elem 0 0, .elem 0 2, .elem 0 0, .elem 0 2, 2, 2⟩) ∧
    ∃ w', push_back true ex_full 0 (.val 3) = .ret w' () ∧
      ∃ b ys, data w' 0 = some (.elem b 0) ∧ w'.heap[b]? = some (some ys) ∧
        ys.length = capacity_at_write ⟨.elem 0 0, .elem 0 2, .elem 0 0, .elem 0 2, 2, 2⟩ ∧
        ys[2]? = some 3 :=
  have h := push_back_write_in_bounds ex_full 0
    ⟨.elem 0 0, .elem 0 2, .elem 0 0, .elem 0 2, 2, 2⟩ true 3 rfl (by decide) (by decide)
  ⟨h.1, _, rfl, (h.2 (by decide)).2.2 _ rfl⟩

/-! ## C20: the capacity never shrinks -/

theorem grown_ge (n k : Nat) : k ≤ grown n k := by
  unfold grown
  split
  · exact le_refl _
  · split <;> omega

theorem apply_op_mono {T : Type} [Fresh T] {w : World T} {c : Nat} {blk : Option Nat}
    {k : Nat} {xs : List T} (h : Rep w c blk k xs) (op : Op T) :
    ∃ w' blk' k' xs', (apply_op w c op).world? = some w' ∧ Rep w' c blk' k' xs' ∧
      k ≤ k' := by
  cases op with
  | push_back g v =>
    by_cases hroom : xs.length < k ∨ (g = true ∧ 2 * k ≤ MAX_ARRAY_LEN)
    · obtain ⟨w', b', hw', hrep, -, -⟩ := push_back_rep h g v hroom
      exact ⟨w', some b', _, _, by simp [apply_op, hw', Outcome.world?], hrep,
        grown_ge _ _⟩
    · have hthrow := push_back_throw h g v hroom
      exact ⟨w, blk, k, xs, by simp [apply_op, hthrow, Outcome.world?], h, le_refl _⟩
  | pop_back =>
    obtain ⟨w', hw', hrep, -, -, -⟩ := pop_back_rep h
    exact ⟨w', blk, _, _, by simp [apply_op, hw', Outcome.world?], hrep, le_refl _⟩
  | clear =>
    obtain ⟨w', hw', hrep, -, -⟩ := clear_rep h
    exact ⟨w', blk, _, _, by simp [apply_op, hw', Outcome.world?], hrep, le_refl _⟩

theorem run_ops_mono {T : Type} [Fresh T] {c : Nat} (ops : List (Op T)) :
    ∀ (w : World T) (blk : Option Nat) (k : Nat) (xs : List T), Rep w c blk k xs →
      ∃ w' blk' k' xs', run_ops w c ops = some w' ∧ Rep w' c blk' k' xs' ∧ k ≤ k' := by
  induction ops with
  | nil =>
    intro w blk k xs h
    exact ⟨w, blk, k, xs, rfl, h, le_refl _⟩
  | cons op rest ih =>
    intro w blk k xs h
    obtain ⟨w1, blk1, k1, xs1, hw1, hrep1, hk1⟩ := apply_op_mono h op
    obtain ⟨w2, blk2, k2, xs2, hw2, hrep2, hk2⟩ := ih w1 blk1 k1 xs1 hrep1
    exact ⟨w2, blk2, k2, xs2, by simp only [run_ops, hw1, hw2], hrep2, hk1.trans hk2⟩

theorem run_ops_append {T : Type} [Fresh T] (c : Nat) (l1 l2 : List (Op T)) :
    ∀ w : World T, run_ops w c (l1 ++ l2) =
      match run_ops w c l1 with
      | none => none
      | some w1 => run_ops w1 c l2 := by
  induction l1 with
  | nil => intro w; rfl
  | cons op rest ih =>
    intro w
    simp only [List.cons_append, run_ops]
    cases (apply_op w c op).world? with
    | none => rfl
    | some w1 => exact ih w1

/-- C20. For every well-formed container `c` of capacity `k`: a `push_back` (either
overload, whatever the allocator answers) leaves a capacity of at least `k`, `pop_back`
and `clear` leave the capacity exactly `k`, and along every sequence of `push_back`,
`pop_back` and `clear` calls the capacity never decreases: after any further calls it is
at least what it was after the calls before them. -/
theorem capacity_never_shrinks {T : Type} [Fresh T] (w : World T) (c k : Nat)
    (hwf : wf w c = true) (hcap : capacity w c = some k) :
    (∀ g v, ∃ w' k', (push_back g w c (.val v)).world? = some w' ∧
      (push_back_move g w c (.val v)).world? = some w' ∧ capacity w' c = some k' ∧ k ≤ k') ∧
    (∃ w', pop_back w c = .ret w' () ∧ capacity w' c = some k) ∧
    (∃ w', clear w c = .ret w' () ∧ capacity w' c = some k) ∧
    (∀ ops1 ops2, ∃ w1 w2 k1 k2,
      run_ops w c ops1 = some w1 ∧ run_ops w c (ops1 ++ ops2) = some w2 ∧
      capacity w1 c = some k1 ∧ capacity w2 c = some k2 ∧ k ≤ k1 ∧ k1 ≤ k2) := by
  obtain ⟨blk, k0, xs, h⟩ := rep_of_wf hwf
  have hk := rep_capacity h
  rw [hcap] at hk
  injection hk with hk
  subst hk
  refine ⟨fun g v => ?_, ?_, ?_, fun ops1 ops2 => ?_⟩
  · obtain ⟨w', blk', k', xs', hw', hrep, hle⟩ := apply_op_mono h (.push_back g v)
    exact ⟨w', k', hw', hw', rep_capacity hrep, hle⟩
  · obtain ⟨w', hw', hrep, -, -, -⟩ := pop_back_rep h
    exact ⟨w', hw', rep_capacity hrep⟩
  · obtain ⟨w', hw', hrep, -, -⟩ := clear_rep h
    exact ⟨w', hw', rep_capacity hrep⟩
  · obtain ⟨w1, blk1, k1, xs1, hw1, hrep1, hk1⟩ := run_ops_mono ops1 w blk k xs h
    obtain ⟨w2, blk2, k2, xs2, hw2, hrep2, hk2⟩ := run_ops_mono ops2 w1 blk1 k1 xs1 hrep1
    refine ⟨w1, w2, k1, k2, hw1, ?_, rep_capacity hrep1, rep_capacity hrep2, hk1, hk2⟩
    rw [run_ops_append, hw1]
    exact hw2

/-- C20 at the full container `[1, 2]`, for a sequence of calls cut in two. -/
theorem capacity_never_shrinks_witness :
    ∃ w1 w2 k1 k2,
      run_ops ex_full 0 (ex_ops.take 3) = some w1 ∧
      run_ops ex_full 0 (ex_ops.take 3 ++ ex_ops.drop 3) = some w2 ∧
      capacity w1 0 = some k1 ∧ capacity w2 0 = some k2 ∧ 2 ≤ k1 ∧ k1 ≤ k2 :=
  (capacity_never_shrinks ex_full 0 2 (by decide) (by decide)).2.2.2
    (ex_ops.take 3) (ex_ops.drop 3)

/-! ## C17: the copying work is linear -/

theorem reallocate_count {T : Type} [Fresh T] {w : World T} {c : Nat}
    {blk : Option Nat} {k : Nat} {xs : List T} (h : Rep w c blk k xs) (g : Bool) (m : Nat)
    (w' : World T) (cnt : Nat) (hr : reallocate g w c m = .ret w' cnt) :
    cnt = xs.length := by
  by_cases hg : g = true ∧ m ≤ MAX_ARRAY_LEN
  · obtain ⟨hg1, hmax⟩ := hg
    subst hg1
    by_cases hm : xs.length ≤ m
    · obtain ⟨w1, hw1, -, -⟩ := reallocate_rep h m hm hmax
      rw [hw1] at hr
      injection hr with _ h2
      exact h2.symm
    · exfalso
      cases blk with
      | none =>
        obtain ⟨-, -, hx⟩ := h
        subst hx
        exact hm (Nat.zero_le _)
      | some b =>
        obtain ⟨ho, h1, h2, ys, hb, h3, h4⟩ := h
        have hbl : b < w.heap.length := (List.getElem?_eq_some.1 hb).1
        simp [reallocate, ho, new_array, hmax, std_copy, read_range, write_range,
          List.getElem?_append_left hbl, hb, h3, h1, h4, hm] at hr
  · rw [reallocate_throw h g m hg] at hr
    cases hr

theorem ensure_room_count {T : Type} [Fresh T] {w : World T} {c : Nat}
    {blk : Option Nat} {k : Nat} {xs : List T} (h : Rep w c blk k xs) (g : Bool)
    (w' : World T) (cnt : Nat) (hr : ensure_room g w c = .ret w' cnt) :
    cnt = if xs.length = k then xs.length else 0 := by
  have hle := rep_length_le h
  by_cases hnk : xs.length = k
  · rw [if_pos hnk]
    rw [ensure_room_full h g hnk] at hr
    exact reallocate_count h g _ w' cnt hr
  · rw [if_neg hnk]
    rw [ensure_room_spare h g (by omega)] at hr
    injection hr with _ h2
    exact h2.symm

theorem rep_push_back_copies {T : Type} [Fresh T] {w : World T} {c : Nat}
    {blk : Option Nat} {k : Nat} {xs : List T} (h : Rep w c blk k xs) (g : Bool) :
    push_back_copies g w c =
      if xs.length = k ∧ g = true ∧ 2 * k ≤ MAX_ARRAY_LEN then xs.length else 0 := by
  have hle := rep_length_le h
  unfold push_back_copies
  by_cases hnk : xs.length = k
  · rw [ensure_room_full h g hnk]
    have hgk : grown xs.length k ≤ MAX_ARRAY_LEN ↔ 2 * k ≤ MAX_ARRAY_LEN := by
      simp only [grown, hnk, Nat.lt_irrefl, if_false]
      by_cases hk0 : k = 0
      · simp [hk0, MAX_ARRAY_LEN]
      · simp only [hk0, if_false]
    have hgl : xs.length ≤ grown xs.length k := by
      simp only [grown, hnk, Nat.lt_irrefl, if_false]
      by_cases hk0 : k = 0
      · rw [if_pos hk0]; omega
      · rw [if_neg hk0]; omega
    by_cases hg : g = true ∧ 2 * k ≤ MAX_ARRAY_LEN
    · obtain ⟨hg1, h2k⟩ := hg
      subst hg1
      obtain ⟨w1, hw1, -, -⟩ := reallocate_rep h (grown xs.length k) hgl (hgk.2 h2k)
      rw [hw1, if_pos ⟨hnk, rfl, h2k⟩]
    · have hno : ¬ (g = true ∧ grown xs.length k ≤ MAX_ARRAY_LEN) :=
        fun hh => hg ⟨hh.1, hgk.1 hh.2⟩
      rw [reallocate_throw h g _ hno, if_neg (fun hh => hg hh.2)]
  · rw [ensure_room_spare h g (by omega), if_neg (fun hh => hnk hh.1)]

theorem push_back_ret_copies {T : Type} [Fresh T] {w w' : World T} {c : Nat}
    {blk : Option Nat} {k : Nat} {xs : List T} (h : Rep w c blk k xs) (g : Bool)
    (a : Arg T) (hp : push_back g w c a = .ret w' ()) :
    push_back_copies g w c = if xs.length = k then xs.length else 0 := by
  unfold push_back at hp
  unfold push_back_copies
  cases he : ensure_room g w c with
  | ret w1 n => exact ensure_room_count h g w1 n he
  | throw w1 e =>
    rw [he] at hp
    cases hp
  | undefined =>
    rw [he] at hp
    cases hp

theorem push_back_copied_snoc {T : Type} [Fresh T] (w : World T) (c : Nat)
    (l : List (Bool × T)) (a : Bool × T) :
    push_back_copied w c (l ++ [a]) = copy_next c (push_back_copied w c l) a := by
  simp [push_back_copied, List.foldl_append]

theorem copy_next_out {T : Type} [Fresh T] (c : Nat) (r : CopyRun T) (r' : PushRun T)
    (a : Bool × T) (h : r.out = r'.out) : (copy_next c r a).out = (push_next c r' a).out := by
  unfold copy_next push_next
  rw [← h]
  cases hr : r.out with
  | ret w1 u =>
    simp only []
    cases push_back a.1 w1 c (.val a.2) <;> rfl
  | throw w1 e => simp only [hr, ← h]
  | undefined => simp only [hr, ← h]

theorem push_back_copied_out {T : Type} [Fresh T] (w : World T) (c : Nat)
    (args : List (Bool × T)) :
    (push_back_copied w c args).out = (push_back_all w c args).out := by
  induction args using List.reverseRecOn with
  | nil => rfl
  | append_singleton l a ih =>
    rw [push_back_copied_snoc, push_back_all_snoc]
    exact copy_next_out c _ _ a ih

theorem cap_after_lt {n : Nat} (hn : 1 ≤ n) : cap_after n < 2 * n := by
  have hne : n ≠ 0 := by omega
  simp only [cap_after, hne, if_false]
  rcases Nat.lt_or_ge 1 n with h1 | h1
  · have hpos := Nat.clog_pos (b := 2) (by norm_num) h1
    have hlt := Nat.pow_pred_clog_lt_self (b := 2) (by norm_num) h1
    obtain ⟨j, hj⟩ : ∃ j, Nat.clog 2 n = j + 1 := ⟨Nat.clog 2 n - 1, by omega⟩
    rw [hj] at hlt ⊢
    simp only [Nat.pred_succ] at hlt
    rw [pow_succ]
    omega
  · have : n = 1 := by omega
    subst this
    simp [Nat.clog_one_right]

theorem push_back_copied_fresh {T : Type} [Fresh T] {w0 : World T} {c : Nat}
    (h0 : Rep w0 c none 0 []) (args : List (Bool × T)) :
    (push_back_copied w0 c args).copied ≤ 2 * args.length ∧
      (∀ w', (push_back_copied w0 c args).out = .ret w' () →
        (push_back_copied w0 c args).copied = cap_after args.length - 1) := by
  induction args using List.reverseRecOn with
  | nil =>
    exact ⟨Nat.zero_le _, fun _ _ => by simp [push_back_copied, cap_after]⟩
  | append_singleton l a ih =>
    obtain ⟨ihle, iheq⟩ := ih
    rw [push_back_copied_snoc]
    have hlen : (l ++ [a]).length = l.length + 1 := by simp
    cases hr : (push_back_copied w0 c l).out with
    | ret w1 u =>
      have hcop := iheq w1 hr
      have hall : (push_back_all w0 c l).out = .ret w1 () := by
        rw [← push_back_copied_out]; exact hr
      obtain ⟨⟨blk, hrep⟩, -⟩ := push_back_all_fresh h0 l w1 hall
      have hlm : (l.map Prod.snd).length = l.length := by simp
      have hcost := fun w2 (hp : push_back a.1 w1 c (.val a.2) = .ret w2 ()) =>
        push_back_ret_copies hrep a.1 (.val a.2) hp
      rw [hlm] at hcost
      have harith := (cap_after_succ l.length).1
      have hbound : 1 ≤ l.length + 1 := by omega
      have hlt := cap_after_lt hbound
      cases hp : push_back a.1 w1 c (.val a.2) with
      | ret w2 u2 =>
        have hval : (copy_next c (push_back_copied w0 c l) a).copied =
            cap_after (l.length + 1) - 1 := by
          simp only [copy_next, hr, hp, hcop, hcost w2 hp]
          rw [← harith]
          unfold grown
          have hle := (rep_length_le hrep).1
          rw [hlm] at hle
          by_cases heq : l.length = cap_after l.length
          · rw [if_pos heq, if_neg (by omega)]
            split <;> omega
          · rw [if_neg heq, if_pos (by omega)]
            omega
        rw [hlen]
        exact ⟨by rw [hval]; omega, fun _ _ => hval⟩
      | throw w2 e =>
        simp only [copy_next, hr, hp]
        exact ⟨by omega, fun _ h => by cases h⟩
      | undefined =>
        simp only [copy_next, hr, hp]
        exact ⟨by omega, fun _ h => by cases h⟩
    | throw w1 e =>
      simp only [copy_next, hr]
      exact ⟨by omega, fun _ h => by cases h⟩
    | undefined =>
      simp only [copy_next, hr]
      exact ⟨by omega, fun _ h => by cases h⟩

/-- C17. Let `c` be default-constructed and let `N` calls of `push_back` follow, with any
values and any answers of the allocator.  The number of elements which `reallocate`
copies during the run, as the copy loop inside it counts them, is at most `2 * N`; when
all calls return it is exactly the final capacity less one (`0` for `N = 0`).  All calls
return when every allocation is granted and `N ≤ 2 ^ 62`.  A single growth step on a
well-formed container copies exactly `size()` elements: every call of `reallocate` which
returns reports that count, and it does return when the block is granted and is large
enough.  A `push_back` copies `size()` elements when the container is full and the
doubled block is granted, and none otherwise. -/
theorem copying_is_linear {T : Type} [Fresh T] (w w0 : World T) (c : Nat)
    (args : List (Bool × T)) (h0 : ctor_default w = .ret w0 c) :
    (push_back_copied w0 c args).copied ≤ 2 * args.length ∧
    (∀ w', (push_back_copied w0 c args).out = .ret w' () →
      ∃ k, capacity w' c = some k ∧ (push_back_copied w0 c args).copied = k - 1) ∧
    ((∀ a ∈ args, a.1 = true) → args.length ≤ 2 ^ 62 →
      ∃ w', (push_back_copied w0 c args).out = .ret w' ()) ∧
    (∀ (w1 : World T) (c1 n k : Nat), wf w1 c1 = true → size w1 c1 = some n →
      capacity w1 c1 = some k →
      (∀ g m w' cnt, reallocate g w1 c1 m = .ret w' cnt → cnt = n) ∧
      (∀ m, n ≤ m → m ≤ MAX_ARRAY_LEN → ∃ w', reallocate true w1 c1 m = .ret w' n) ∧
      (∀ g w' cnt, ensure_room g w1 c1 = .ret w' cnt → cnt = if n = k then n else 0) ∧
      (∀ g, push_back_copies g w1 c1 =
        if n = k ∧ g = true ∧ 2 * k ≤ MAX_ARRAY_LEN then n else 0)) := by
  have hrep0 := (ctor_default_rep h0).1
  obtain ⟨hle, heq⟩ := push_back_copied_fresh hrep0 args
  refine ⟨hle, fun w' hret => ?_, fun hg hN => ?_, fun w1 c1 n k hwf hs hc => ?_⟩
  · have hall : (push_back_all w0 c args).out = .ret w' () := by
      rw [← push_back_copied_out]; exact hret
    obtain ⟨⟨blk, hrep⟩, -⟩ := push_back_all_fresh hrep0 args w' hall
    exact ⟨_, rep_capacity hrep, heq w' hret⟩
  · rw [push_back_copied_out]
    exact push_back_all_returns hrep0 args hg (cap_after_le_of_le hN)
  · obtain ⟨blk, xs, hrep, hn⟩ := rep_of_size_cap hwf hs hc
    subst hn
    refine ⟨fun g m w' cnt hr => reallocate_count hrep g m w' cnt hr, fun m hm hmax => ?_,
      fun g w' cnt hr => ensure_room_count hrep g w' cnt hr,
      fun g => rep_push_back_copies hrep g⟩
    obtain ⟨w', hw', -, -⟩ := reallocate_rep hrep m hm hmax
    exact ⟨w', hw'⟩

/-- C17 for three calls: `0 + 1 + 2 = 3` elements are copied, the capacity being 4; and
for one growth step of the full container `[1, 2]`, which copies 2 elements. -/
theorem copying_is_linear_witness :
    (push_back_copied ex_fresh 0 ex_args).copied ≤ 2 * 3 ∧
    (∃ w' k, (push_back_copied ex_fresh 0 ex_args).out = .ret w' () ∧
      capacity w' 0 = some k ∧ (push_back_copied ex_fresh 0 ex_args).copied = k - 1) ∧
    (push_back_copied ex_fresh 0 ex_args).copied = 3 ∧
    (∃ w', reallocate true ex_full 0 4 = .ret w' 2) ∧
    push_back_copies true ex_full 0 = 2 :=
  have h := copying_is_linear (World.init Nat) ex_fresh 0 ex_args rfl
  have h4 := h.2.2.2 ex_full 0 2 2 (by decide) (by decide) (by decide)
  ⟨h.1,
    (h.2.2.1 (by decide) (by decide)).elim fun w' hw' =>
      (h.2.1 w' hw').elim fun k hk => ⟨w', k, hw', hk⟩,
    rfl,
    h4.2.1 4 (by decide) (by decide),
    (h4.2.2.2 true).trans (by decide)⟩

/-! ## The invariant of the whole state -/

theorem rep_block_of {T : Type} {w : World T} {c : Nat} {blk : Option Nat} {k : Nat}
    {xs : List T} (h : Rep w c blk k xs) : block_of w c = blk := by
  unfold block_of
  rw [rep_data h]
  cases blk <;> rfl

theorem block_of_congr {T : Type} {w w' : World T} {d : Nat}
    (h : w'.objs[d]? = w.objs[d]?) : block_of w' d = block_of w d := by
  simp only [block_of, data, h]

theorem block_of_lt {T : Type} {w : World T} {d x : Nat} (h : block_of w d = some x) :
    d < w.objs.length := by
  by_contra hge
  have hnone : w.objs[d]? = none := List.getElem?_eq_none (by omega)
  simp [block_of, data, hnone] at h

theorem lt_of_getElem?_eq {α : Type} {l l' : List α} {d : Nat}
    (h : l'[d]? = l[d]?) (hd : d < l'.length) : d < l.length := by
  have h1 : l'[d]? = some l'[d] := List.getElem?_eq_getElem hd
  rw [h] at h1
  exact (List.getElem?_eq_some.1 h1).1

theorem rep_congr {T : Type} {w w' : World T} {d : Nat} {blk : Option Nat} {k : Nat}
    {xs : List T} (h : Rep w d blk k xs) (ho : w'.objs[d]? = w.objs[d]?)
    (hh : ∀ b, blk = some b → w'.heap[b]? = w.heap[b]?) : Rep w' d blk k xs := by
  cases blk with
  | none =>
    obtain ⟨h1, hk, hx⟩ := h
    exact ⟨by rw [ho]; exact h1, hk, hx⟩
  | some b =>
    obtain ⟨h0, h1, h2, ys, hb, h3, h4⟩ := h
    exact ⟨by rw [ho]; exact h0, h1, h2, ys, by rw [hh b rfl]; exact hb, h3, h4⟩

theorem sound_init (T : Type) : Sound (World.init T) :=
  ⟨fun d hd => absurd hd (by simp [World.init]),
    fun a b x _ ha _ => by simp [block_of, data, World.init] at ha⟩

theorem sound_block_lt {T : Type} {w : World T} (hs : Sound w) {d x : Nat}
    (h : block_of w d = some x) : x < w.heap.length := by
  obtain ⟨k, xs, hr⟩ := hs.1 d (block_of_lt h)
  rw [h] at hr
  exact rep_block_lt hr

theorem sound_frame {T : Type} {w w' : World T} {c : Nat} {blk blk' : Option Nat}
    {k' : Nat} {xs' : List T} (hs : Sound w) (hf : Frame w w' c blk)
    (hown : blk = none ∨ block_of w c = blk) (hrep : Rep w' c blk' k' xs')
    (hblk : blk' = blk ∨ blk' = some w.heap.length ∨ blk' = none) : Sound w' := by
  have hc' := rep_block_of hrep
  have key : ∀ d x, d ≠ c → block_of w' d = some x → block_of w' c = some x → False := by
    intro d x hdc hd hcx
    have hdw : block_of w d = some x := by rw [← block_of_congr (hf.2.1 d hdc)]; exact hd
    have hxl := sound_block_lt hs hdw
    rw [hc'] at hcx
    rcases hblk with e | e | e
    · rcases hown with e' | e'
      · rw [e, e'] at hcx; cases hcx
      · exact hs.2 d c x hdc hdw (by rw [e', ← e, hcx])
    · rw [e] at hcx
      injection hcx with hcx
      omega
    · rw [e] at hcx; cases hcx
  constructor
  · intro d hd
    by_cases hdc : d = c
    · subst hdc
      rw [hc']
      exact ⟨_, _, hrep⟩
    · have ho := hf.2.1 d hdc
      have hdw := lt_of_getElem?_eq ho hd
      obtain ⟨k, xs, hr⟩ := hs.1 d hdw
      rw [block_of_congr ho]
      refine ⟨k, xs, rep_frame hr hf hdc ?_⟩
      intro x hx hbx
      rcases hown with e | e
      · rw [e] at hbx; cases hbx
      · exact hs.2 d c x hdc hx (by rw [e, hbx])
  · intro a b x hab ha hb
    by_cases hac : a = c
    · subst hac
      exact key b x (Ne.symm hab) hb ha
    · by_cases hbc : b = c
      · subst hbc
        exact key a x hac ha hb
      · exact hs.2 a b x hab (by rw [← block_of_congr (hf.2.1 a hac)]; exact ha)
          (by rw [← block_of_congr (hf.2.1 b hbc)]; exact hb)

theorem sound_take_over {T : Type} {w w' : World T} {t a : Nat} (hs : Sound w)
    (hta : t ≠ a) (ha : a < w.objs.length)
    (hlen : ∀ d, d < w'.objs.length → d ≠ t → d ≠ a → w'.objs[d]? = w.objs[d]?)
    (hrt : ∃ k xs, Rep w' t (block_of w a) k xs) (hra : Rep w' a none 0 [])
    (hheap : ∀ d b, d ≠ t → d < w.objs.length → block_of w d = some b →
      w'.heap[b]? = w.heap[b]?) : Sound w' := by
  obtain ⟨kt, xst, hrt⟩ := hrt
  have hbt := rep_block_of hrt
  have hba := rep_block_of hra
  have hold : ∀ d, d < w'.objs.length → d ≠ t → d ≠ a →
      d < w.objs.length ∧ block_of w' d = block_of w d := by
    intro d hd h1 h2
    have ho := hlen d hd h1 h2
    exact ⟨lt_of_getElem?_eq ho hd, block_of_congr ho⟩
  have key : ∀ d x, block_of w' d = some x →
      (d = t ∧ block_of w a = some x) ∨ (d ≠ t ∧ d ≠ a ∧ block_of w d = some x) := by
    intro d x hd
    by_cases h1 : d = t
    · subst h1
      rw [hbt] at hd
      exact Or.inl ⟨rfl, hd⟩
    · by_cases h2 : d = a
      · subst h2
        rw [hba] at hd
        cases hd
      · right
        refine ⟨h1, h2, ?_⟩
        rw [← (hold d (block_of_lt hd) h1 h2).2]
        exact hd
  constructor
  · intro d hd
    by_cases h1 : d = t
    · subst h1
      rw [hbt]
      exact ⟨_, _, hrt⟩
    · by_cases h2 : d = a
      · subst h2
        rw [hba]
        exact ⟨_, _, hra⟩
      · obtain ⟨hdw, hbd⟩ := hold d hd h1 h2
        obtain ⟨k, xs, hr⟩ := hs.1 d hdw
        rw [hbd]
        exact ⟨k, xs, rep_congr hr (hlen d hd h1 h2) (fun b hb => hheap d b h1 hdw hb)⟩
  · intro x y b hxy hx hy
    rcases key x b hx with ⟨e1, f1⟩ | ⟨e1, e1', f1⟩ <;>
      rcases key y b hy with ⟨e2, f2⟩ | ⟨e2, e2', f2⟩
    · exact hxy (e1.trans e2.symm)
    · exact hs.2 a y b (Ne.symm e2') f1 f2
    · exact hs.2 x a b e1' f1 f2
    · exact hs.2 x y b hxy f1 f2

theorem ctor_move_objs {T : Type} {w w' : World T} {a n : Nat}
    (h : ctor_move w a = .ret w' n) :
    a < w.objs.length ∧ n = w.objs.length ∧ w'.objs.length = w.objs.length + 1 := by
  unfold ctor_move at h
  split at h
  · cases h
  · rename_i o ho
    injection h with h1 h2
    subst h1 h2
    exact ⟨(List.getElem?_eq_some.1 ho).1, rfl, by simp⟩

theorem sound_ctor_move {T : Type} {w w' : World T} {a n : Nat} (hs : Sound w)
    (h : ctor_move w a = .ret w' n) : Sound w' := by
  obtain ⟨ha, hn, hlen⟩ := ctor_move_objs h
  obtain ⟨k, xs, hr⟩ := hs.1 a ha
  obtain ⟨w1, hw1, hrn, hra, hheap, hobjs⟩ := ctor_move_rep hr
  rw [h] at hw1
  injection hw1 with hw1 _
  subst hw1
  subst hn
  refine sound_take_over hs (Nat.ne_of_gt ha) ha (fun d hd h1 h2 => ?_) ⟨_, _, hrn⟩ hra
    (fun d b _ _ _ => by rw [hheap])
  exact hobjs d h2 (by omega)

theorem assign_move_objs {T : Type} {w w' : World T} {t a : Nat}
    (h : operator_assign_move w t a = .ret w' ()) :
    t < w.objs.length ∧ a < w.objs.length := by
  unfold operator_assign_move at h
  split at h
  · rename_i ot oa hot hoa
    exact ⟨(List.getElem?_eq_some.1 hot).1, (List.getElem?_eq_some.1 hoa).1⟩
  · cases h

theorem sound_assign_move {T : Type} {w w' : World T} {t a : Nat} (hs : Sound w)
    (hne : t ≠ a) (h : operator_assign_move w t a = .ret w' ()) : Sound w' := by
  obtain ⟨ht, ha⟩ := assign_move_objs h
  obtain ⟨kt, ys, hrt⟩ := hs.1 t ht
  obtain ⟨k, xs, hr⟩ := hs.1 a ha
  have hsep : ∀ x, block_of w a = some x → block_of w t ≠ some x :=
    fun x hx hx' => hs.2 t a x hne hx' hx
  obtain ⟨w1, hw1, hrt', hra, hheap, hobjs⟩ := operator_assign_move_rep hrt hr hne hsep
  rw [h] at hw1
  injection hw1 with hw1 _
  subst hw1
  refine sound_take_over hs hne ha (fun d _ h1 h2 => hobjs d h1 h2) ⟨_, _, hrt'⟩ hra
    (fun d b hd _ hb => ?_)
  rw [hheap, release_get _ _ _ (fun e => hs.2 d t b hd hb e)]

theorem sound_apply_op {T : Type} [Fresh T] {w w' : World T} {c : Nat} (hs : Sound w)
    (op : Op T) (h : (apply_op w c op).world? = some w') : Sound w' := by
  by_cases hc : c < w.objs.length
  · obtain ⟨k, xs, hr⟩ := hs.1 c hc
    obtain ⟨w1, blk1, k1, xs1, hw1, hrep1, hblk1, hfr⟩ := apply_op_rep hr op
    rw [h] at hw1
    injection hw1 with hw1
    subst hw1
    refine sound_frame hs hfr (Or.inr rfl) hrep1 ?_
    rcases hblk1 with e | e
    · exact Or.inl e
    · exact Or.inr (Or.inl e)
  · have hnone : w.objs[c]? = none := List.getElem?_eq_none (by omega)
    cases op <;>
      simp [apply_op, push_back, ensure_room, pop_back, clear, hnone, Outcome.world?] at h

theorem store_at_end_value {T : Type} {w w' : World T} {c : Nat} (a : Arg T)
    (h : (store_at_end w c a).world? = some w') :
    ∃ v, (store_at_end w c (.val v)).world? = some w' := by
  cases a with
  | val v => exact ⟨v, h⟩
  | ref p =>
    cases ho : w.objs[c]? with
    | none => simp [store_at_end, ho, Outcome.world?] at h
    | some t =>
      cases hl : load w.heap p with
      | none => simp [store_at_end, ho, Arg.read, hl, Outcome.world?] at h
      | some v =>
        refine ⟨v, ?_⟩
        simp only [store_at_end, ho, Arg.read, hl] at h ⊢
        exact h

theorem push_back_value {T : Type} [Fresh T] {w w' : World T} {c : Nat} (g : Bool)
    (a : Arg T) (h : (push_back g w c a).world? = some w') :
    ∃ v, (push_back g w c (.val v)).world? = some w' := by
  unfold push_back at h ⊢
  cases he : ensure_room g w c with
  | ret w1 n =>
    rw [he] at h
    exact store_at_end_value a h
  | throw w1 e =>
    rw [he] at h
    exact ⟨Fresh.fresh 0 0, h⟩
  | undefined =>
    rw [he] at h
    simp [Outcome.world?] at h

theorem self_assign_move_eq {T : Type} {w : World T} {c : Nat} (hwf : wf w c = true) :
    operator_assign_move w c c = .ret w () := by
  obtain ⟨blk, k, xs, h⟩ := rep_of_wf hwf
  obtain ⟨t, ho, -, -⟩ := rep_obj h
  simp [operator_assign_move, ho]

theorem ctor_default_frame {T : Type} (w : World T) :
    ∃ w', ctor_default w = .ret w' w.objs.length ∧ Rep w' w.objs.length none 0 [] ∧
      Frame w w' w.objs.length none := by
  refine ⟨_, rfl, by simp [Rep, ArcVector.empty], ?_⟩
  simp only [Frame, List.length_append, List.length_singleton]
  refine ⟨by omega, fun d hd => ?_, le_refl _, fun _ _ _ => trivial⟩
  rcases Nat.lt_or_ge d w.objs.length with hlt | hge
  · exact List.getElem?_append_left hlt
  · rw [List.getElem?_eq_none (by simp; omega), List.getElem?_eq_none hge]

theorem sound_exec {T : Type} [Fresh T] {w w' : World T} (hs : Sound w)
    (call : Call T) (h : exec w call = some w') : Sound w' := by
  cases call with
  | ctor_default =>
    obtain ⟨w1, hw1, hrep, hfr⟩ := ctor_default_frame w
    simp only [exec, hw1, Outcome.world?, Option.some.injEq] at h
    subst h
    exact sound_frame hs hfr (Or.inl rfl) hrep (Or.inl rfl)
  | ctor_size g n =>
    by_cases hok : g = true ∧ n ≤ MAX_ARRAY_LEN
    · obtain ⟨hg, hn⟩ := hok
      subst hg
      obtain ⟨w1, hw1, hrep, hfr⟩ := ctor_size_rep w n hn
      simp only [exec, hw1, Outcome.world?, Option.some.injEq] at h
      subst h
      exact sound_frame hs hfr (Or.inl rfl) hrep (Or.inr (Or.inl rfl))
    · simp only [exec, ctor_size_throw w n g hok, Outcome.world?, Option.some.injEq] at h
      subst h
      exact hs
  | ctor_copy g a =>
    by_cases ha : a < w.objs.length
    · obtain ⟨k, xs, hr⟩ := hs.1 a ha
      obtain ⟨o, ho, -, hoc⟩ := rep_obj hr
      cases g with
      | true =>
        obtain ⟨w1, hw1, hrep, hfr⟩ := ctor_copy_rep hr
        simp only [exec, hw1, Outcome.world?, Option.some.injEq] at h
        subst h
        exact sound_frame hs hfr (Or.inl rfl) hrep (Or.inr (Or.inl rfl))
      | false =>
        simp [exec, ctor_copy, ho, new_array, Outcome.world?] at h
        subst h
        exact hs
    · have hnone : w.objs[a]? = none := List.getElem?_eq_none (by omega)
      simp [exec, ctor_copy, hnone, Outcome.world?] at h
  | ctor_move a =>
    cases hm : ctor_move w a with
    | ret w1 n =>
      simp only [exec, hm, Outcome.world?, Option.some.injEq] at h
      subst h
      exact sound_ctor_move hs hm
    | throw w1 e => simp [ctor_move] at hm; split at hm <;> cases hm
    | undefined => simp [exec, hm, Outcome.world?] at h
  | assign_copy g t a =>
    by_cases ht : t < w.objs.length
    · by_cases ha : a < w.objs.length
      · obtain ⟨kt, ys, hrt⟩ := hs.1 t ht
        obtain ⟨k, xs, hr⟩ := hs.1 a ha
        obtain ⟨ot, hot, -, -⟩ := rep_obj hrt
        obtain ⟨o, ho, -, -⟩ := rep_obj hr
        by_cases hne : t = a
        · subst hne
          simp [exec, operator_assign_copy, hot, Outcome.world?] at h
          subst h
          exact hs
        · cases g with
          | true =>
            obtain ⟨w1, hw1, hrep, hfr⟩ := operator_assign_copy_rep hrt hr hne
            simp only [exec, hw1, Outcome.world?, Option.some.injEq] at h
            subst h
            exact sound_frame hs hfr (Or.inr rfl) hrep (Or.inr (Or.inl rfl))
          | false =>
            simp [exec, operator_assign_copy, hot, ho, hne, new_array, Outcome.world?] at h
            subst h
            exact hs
      · have hnone : w.objs[a]? = none := List.getElem?_eq_none (by omega)
        obtain ⟨kt, ys, hrt⟩ := hs.1 t ht
        obtain ⟨ot, hot, -, -⟩ := rep_obj hrt
        simp [exec, operator_assign_copy, hot, hnone, Outcome.world?] at h
    · have hnone : w.objs[t]? = none := List.getElem?_eq_none (by omega)
      simp [exec, operator_assign_copy, hnone, Outcome.world?] at h
  | assign_move t a =>
    cases hm : operator_assign_move w t a with
    | ret w1 u =>
      simp only [exec, hm, Outcome.world?, Option.some.injEq] at h
      subst h
      by_cases hne : t = a
      · subst hne
        obtain ⟨ht, -⟩ := assign_move_objs hm
        obtain ⟨kt, ys, hrt⟩ := hs.1 t ht
        have hself := (self_assign_move_eq (wf_of_rep hrt))
        rw [hself] at hm
        injection hm with hm
        subst hm
        exact hs
      · exact sound_assign_move hs hne hm
    | throw w1 e =>
      exfalso
      unfold operator_assign_move at hm
      split at hm
      · split at hm
        · split at hm <;> cases hm
        · cases hm
      · cases hm
    | undefined => simp [exec, hm, Outcome.world?] at h
  | push_back g c a =>
    obtain ⟨v, hv⟩ := push_back_value g a h
    exact sound_apply_op hs (.push_back g v) hv
  | push_back_move g c a =>
    obtain ⟨v, hv⟩ := push_back_value g a h
    exact sound_apply_op hs (.push_back g v) hv
  | pop_back c => exact sound_apply_op hs .pop_back h
  | clear c => exact sound_apply_op hs .clear h

theorem sound_run {T : Type} [Fresh T] (calls : List (Call T)) :
    ∀ w0 w : World T, Sound w0 → run_calls w0 calls = some w → Sound w := by
  induction calls with
  | nil =>
    intro w0 w hs h
    simp only [run_calls, Option.some.injEq] at h
    subst h
    exact hs
  | cons call rest ih =>
    intro w0 w hs h
    simp only [run_calls] at h
    cases he : exec w0 call with
    | none => simp [he] at h
    | some w1 =>
      simp only [he] at h
      exact ih w1 w (sound_exec hs call he) h

theorem sound_reachable {T : Type} [Fresh T] {calls : List (Call T)} {w : World T}
    (h : run_calls (World.init T) calls = some w) : Sound w :=
  sound_run calls _ _ (sound_init T) h

theorem sound_rep_of_obj {T : Type} {w : World T} (hs : Sound w) {c : Nat} {t : ArcVector}
    (ho : w.objs[c]? = some t) :
    ∃ blk k xs, Rep w c blk k xs ∧ t.size_ = xs.length ∧ t.capacity_ = k := by
  obtain ⟨k, xs, hr⟩ := hs.1 c (List.getElem?_eq_some.1 ho).1
  obtain ⟨t', ho', hts, htc⟩ := rep_obj hr
  rw [ho] at ho'
  injection ho' with ho'
  subst ho'
  exact ⟨_, k, xs, hr, hts, htc⟩

theorem sound_size_le {T : Type} {w : World T} (hs : Sound w) {c n k : Nat}
    (hsize : size w c = some n) (hcap : capacity w c = some k) :
    n ≤ k ∧ wf w c = true := by
  cases ho : w.objs[c]? with
  | none => simp [size, ho] at hsize
  | some t =>
    obtain ⟨blk, k', xs, hr, -, -⟩ := sound_rep_of_obj hs ho
    have h1 := rep_size hr
    have h2 := rep_capacity hr
    rw [hsize] at h1
    rw [hcap] at h2
    injection h1 with h1
    injection h2 with h2
    subst h1 h2
    exact ⟨(rep_length_le hr).1, wf_of_rep hr⟩

/-! ## C11: `size ≤ capacity` -/

/-- C11. In every state reachable through the public operations (the four constructors,
copy and move assignment, `push_back`, `pop_back` and `clear`, whatever the allocator
answers), every object, the source of a move included, has `size() ≤ capacity()` and is
well formed; whatever call comes next, this holds again in the state it leaves behind;
and it holds in between, when the `reallocate` which `push_back` calls on a full object
returns. -/
theorem size_le_capacity_invariant {T : Type} [Fresh T] (calls : List (Call T))
    (w : World T) (hrun : run_calls (World.init T) calls = some w) :
    (∀ c n k, size w c = some n → capacity w c = some k → n ≤ k ∧ wf w c = true) ∧
    (∀ call w', exec w call = some w' →
      ∀ c n k, size w' c = some n → capacity w' c = some k → n ≤ k ∧ wf w' c = true) ∧
    (∀ g c k w' cnt, size w c = some k → capacity w c = some k →
      reallocate g w c (if k = 0 then 1 else (k * 2) % SIZE_MOD) = .ret w' cnt →
      ∃ k', size w' c = some k ∧ capacity w' c = some k' ∧ k ≤ k' ∧ wf w' c = true) := by
  have hs := sound_reachable hrun
  refine ⟨fun c n k h1 h2 => sound_size_le hs h1 h2,
    fun call w' he c n k h1 h2 => sound_size_le (sound_exec hs call he) h1 h2,
    fun g c k w' cnt h1 h2 hre => ?_⟩
  obtain ⟨blk, xs, hr, hn⟩ := rep_of_size_cap (sound_size_le hs h1 h2).2 h1 h2
  have hle := rep_length_le hr
  by_cases hok : g = true ∧ (if k = 0 then 1 else (k * 2) % SIZE_MOD) ≤ MAX_ARRAY_LEN
  · obtain ⟨hg, hmax⟩ := hok
    subst hg
    have hm : xs.length ≤ (if k = 0 then 1 else (k * 2) % SIZE_MOD) := by
      rw [double_mod hle.2]
      split <;> omega
    obtain ⟨w1, hw1, hrep, -⟩ := reallocate_rep hr _ hm hmax
    rw [hre] at hw1
    injection hw1 with hw1
    subst hw1
    refine ⟨_, by rw [rep_size hrep, hn], rep_capacity hrep, ?_, wf_of_rep hrep⟩
    omega
  · rw [reallocate_throw hr g _ hok] at hre
    cases hre

/-- C11 at the end of `ex_program`, for the object which was moved from and then
assigned to. -/
theorem size_le_capacity_invariant_witness :
    (1 ≤ 2 ∧ wf ex_program_end 0 = true) ∧
    (∃ w', exec ex_program_end (.ctor_move 0) = some w' ∧
      (0 ≤ 0 ∧ wf w' 0 = true) ∧ (1 ≤ 2 ∧ wf w' 3 = true)) :=
  have h := size_le_capacity_invariant ex_program ex_program_end rfl
  ⟨h.1 0 1 2 (by decide) (by decide), _, rfl,
    h.2.1 (.ctor_move 0) _ rfl 0 0 0 (by decide) (by decide),
    h.2.1 (.ctor_move 0) _ rfl 3 1 2 (by decide) (by decide)⟩

/-! ## C12: the data pointer and the capacity -/

/-- C12, counterexample.  After `ArcVector<int> a(0);` the capacity of `a` is 0 and its
data pointer is not null, since `new int[0]` returns a block; the same holds for the copy
`b` in `ArcVector<int> a; ArcVector<int> b(a);`.  Both states are reachable, and in both
"data is null iff capacity is 0" is false. -/
theorem data_null_iff_capacity_zero_counterexample :
    (run_calls (World.init Nat) [.ctor_size true 0] = some ex_zero ∧
      capacity ex_zero 0 = some 0 ∧ data ex_zero 0 = some (.elem 0 0) ∧
      ¬ (data ex_zero 0 = some .null ↔ capacity ex_zero 0 = some 0)) ∧
    (run_calls (World.init Nat) [.ctor_default, .ctor_copy true 0] = some ex_copy_of_empty ∧
      capacity ex_copy_of_empty 1 = some 0 ∧
      data ex_copy_of_empty 1 = some (.elem 0 0) ∧
      ¬ (data ex_copy_of_empty 1 = some .null ↔ capacity ex_copy_of_empty 1 = some 0)) :=
  ⟨⟨rfl, by decide, by decide, by decide⟩, ⟨rfl, by decide, by decide, by decide⟩⟩

/-- C12, amended.  In every state reachable through the public operations, an object
whose data pointer is null has capacity 0 (and size 0); put the other way, an object of
positive capacity has a data pointer which is not null: it points to the first element
of a block.  Capacity 0 does not make the pointer null: a default-constructed object has
a null data pointer and capacity 0, whereas `ArcVector(0)` and the copy of an object of
capacity 0 allocate, and end up with capacity 0 and a data pointer which is not null. -/
theorem data_null_implies_capacity_zero {T : Type} [Fresh T] (calls : List (Call T))
    (w : World T) (hrun : run_calls (World.init T) calls = some w) :
    (∀ c, data w c = some .null → capacity w c = some 0 ∧ size w c = some 0) ∧
    (∀ c k, capacity w c = some k → 0 < k → ∃ b, data w c = some (.elem b 0)) ∧
    (∀ w' c, ctor_default w = .ret w' c →
      capacity w' c = some 0 ∧ data w' c = some .null) ∧
    (∀ g w' c, ctor_size g w 0 = .ret w' c →
      capacity w' c = some 0 ∧ ∃ b, data w' c = some (.elem b 0)) ∧
    (∀ g a w' c, capacity w a = some 0 → ctor_copy g w a = .ret w' c →
      capacity w' c = some 0 ∧ ∃ b, data w' c = some (.elem b 0)) := by
  have hs := sound_reachable hrun
  refine ⟨fun c hd => ?_, fun c k hk hpos => ?_, fun w' c h => ?_, fun g w' c h => ?_,
    fun g a w' c hcap h => ?_⟩
  · cases ho : w.objs[c]? with
    | none => simp [data, ho] at hd
    | some t =>
      obtain ⟨blk, k, xs, hr, -, -⟩ := sound_rep_of_obj hs ho
      cases blk with
      | none =>
        obtain ⟨-, hk, hx⟩ := id hr
        subst hk hx
        exact ⟨rep_capacity hr, rep_size hr⟩
      | some b =>
        rw [(rep_block hr).1] at hd
        cases hd
  · cases ho : w.objs[c]? with
    | none => simp [capacity, ho] at hk
    | some t =>
      obtain ⟨blk, k', xs, hr, -, -⟩ := sound_rep_of_obj hs ho
      have h2 := rep_capacity hr
      rw [hk] at h2
      injection h2 with h2
      subst h2
      cases blk with
      | none =>
        obtain ⟨-, hk0, -⟩ := id hr
        omega
      | some b => exact ⟨b, (rep_block hr).1⟩
  · obtain ⟨hrep, -⟩ := ctor_default_rep h
    exact ⟨rep_capacity hrep, by rw [rep_data hrep]; rfl⟩
  · cases g with
    | false =>
      rw [ctor_size_throw w 0 false (by simp)] at h
      cases h
    | true =>
      obtain ⟨w1, hw1, hrep, -⟩ := ctor_size_rep w 0 (Nat.zero_le _)
      rw [h] at hw1
      injection hw1 with hw1 hc
      subst hw1 hc
      exact ⟨rep_capacity hrep, _, (rep_block hrep).1⟩
  · cases ho : w.objs[a]? with
    | none => simp [capacity, ho] at hcap
    | some t =>
      obtain ⟨blk, k, xs, hr, -, -⟩ := sound_rep_of_obj hs ho
      have h2 := rep_capacity hr
      rw [hcap] at h2
      injection h2 with h2
      subst h2
      cases g with
      | false =>
        simp [ctor_copy, ho, new_array] at h
      | true =>
        obtain ⟨w1, hw1, hrep, -⟩ := ctor_copy_rep hr
        rw [h] at hw1
        injection hw1 with hw1 hc
        subst hw1 hc
        exact ⟨rep_capacity hrep, _, (rep_block hrep).1⟩

/-- C12 (amended) at the end of `ex_program`: object 1 has capacity 2 and a block, and a
container made by `ArcVector(0)` next has capacity 0 and a block as well. -/
theorem data_null_implies_capacity_zero_witness :
    (∃ b, data ex_program_end 1 = some (.elem b 0)) ∧
    (∃ w' c, ctor_size true ex_program_end 0 = .ret w' c ∧
      capacity w' c = some 0 ∧ ∃ b, data w' c = some (.elem b 0)) :=
  have h := data_null_implies_capacity_zero ex_program ex_program_end rfl
  ⟨h.2.1 1 2 (by decide) (by decide), _, _, rfl, h.2.2.2.1 true _ _ rfl⟩

/-! ## C18: the pointer members agree with the counters -/

/-- C18. In every state reachable through the public operations, every object has
`end_ - begin_ == size_`, `allocationBegin_ == begin_` and
`allocationEnd_ - begin_ == capacity_`.  A default-constructed object and the source of a
move (constructor or assignment to another object) have all four pointers null, with
size 0 and capacity 0. -/
theorem members_agree_invariant {T : Type} [Fresh T] (calls : List (Call T))
    (w : World T) (hrun : run_calls (World.init T) calls = some w) :
    (∀ (c : Nat) (t : ArcVector), w.objs[c]? = some t →
      t.end_.diff t.begin_ = some (t.size_ : Int) ∧ t.allocationBegin_ = t.begin_ ∧
        t.allocationEnd_.diff t.begin_ = some (t.capacity_ : Int)) ∧
    (∀ w' c, ctor_default w = .ret w' c → w'.objs[c]? = some ⟨.null, .null, .null, .null, 0, 0⟩) ∧
    (∀ a w' b, ctor_move w a = .ret w' b →
      w'.objs[a]? = some ⟨.null, .null, .null, .null, 0, 0⟩) ∧
    (∀ t a w', t ≠ a → operator_assign_move w t a = .ret w' () →
      w'.objs[a]? = some ⟨.null, .null, .null, .null, 0, 0⟩) := by
  have hs := sound_reachable hrun
  refine ⟨fun c t ho => ?_, fun w' c h => ?_, fun a w' b h => ?_, fun t a w' hne h => ?_⟩
  · obtain ⟨blk, k, xs, hr, -, -⟩ := sound_rep_of_obj hs ho
    cases blk with
    | none =>
      obtain ⟨ho', -, -⟩ := hr
      rw [ho] at ho'
      injection ho' with ho'
      subst ho'
      simp [ArcVector.empty, Ptr.diff]
    | some b =>
      obtain ⟨ho', -⟩ := hr
      rw [ho] at ho'
      injection ho' with ho'
      subst ho'
      simp [Ptr.diff]
  · obtain ⟨hrep, -⟩ := ctor_default_rep h
    exact hrep.1
  · obtain ⟨ha, -, -⟩ := ctor_move_objs h
    obtain ⟨k, xs, hr⟩ := hs.1 a ha
    obtain ⟨w1, hw1, -, hra, -, -⟩ := ctor_move_rep hr
    rw [h] at hw1
    injection hw1 with hw1 _
    subst hw1
    exact hra.1
  · obtain ⟨ht, ha⟩ := assign_move_objs h
    obtain ⟨kt, ys, hrt⟩ := hs.1 t ht
    obtain ⟨k, xs, hr⟩ := hs.1 a ha
    obtain ⟨w1, hw1, -, hra, -, -⟩ := operator_assign_move_rep hrt hr hne
      (fun x hx hx' => hs.2 t a x hne hx' hx)
    rw [h] at hw1
    injection hw1 with hw1 _
    subst hw1
    exact hra.1

/-- C18 at the end of `ex_program`, for object 0, and for the source of a move made
next. -/
theorem members_agree_invariant_witness :
    ((Ptr.elem 4 1).diff (.elem 4 0) = some ((1 : Nat) : Int) ∧
      Ptr.elem 4 0 = Ptr.elem 4 0 ∧
      (Ptr.elem 4 2).diff (.elem 4 0) = some ((2 : Nat) : Int)) ∧
    (∃ w' b, ctor_move ex_program_end 0 = .ret w' b ∧
      w'.objs[0]? = some ⟨.null, .null, .null, .null, 0, 0⟩) :=
  have h := members_agree_invariant ex_program ex_program_end rfl
  ⟨h.1 0 ⟨.elem 4 0, .elem 4 1, .elem 4 0, .elem 4 2, 1, 2⟩ rfl, _, _, rfl,
    h.2.2.1 0 _ _ rfl⟩

end ArcVec
